import Mathlib

/-!
Verification of the CausalGo causal-discovery library.

The development shallowly embeds the Go sources:
* the LASSO coordinate-descent solver of package `regression`
  (`NewLASSO`, `LASSO.Fit`, `softThreshold`);
* the SURD orchestrator of package `surd`
  (`New`, `SURD.Fit`, `standardize`, `prepareData`, `processVariables`,
  `findBestVariable`, `updateResults`, `processLastVariable`, `computeMSE`,
  `countActive`).

Modelling conventions:
* `float64` values are modelled as real numbers; `math.MaxFloat64` is the
  exact real `2^1024 - 2^971`.
* a `gonum mat.Dense` matrix is modelled by the list of its columns
  (`List (List ℝ)`), since every access the code performs is column-wise
  (`mat.Col`, `SetCol`); the row count of a well-formed matrix is the
  common length of its columns.
* a possibly-nil pointer is an `Option`; Go slices are lists.
* Go's channel-based fan-in delivers task results in a scheduler-dependent
  order.  `findBestVariable` is therefore stated over an arbitrary list of
  results, and the orchestrator is instantiated with the canonical
  ascending-index order, the order a single worker produces.
-/

set_option linter.unusedVariables false

namespace CausalGo

noncomputable section

/-- Dot product of two equal-length real vectors (gonum `floats.Dot`). -/
def dotp (xs ys : List ℝ) : ℝ := (List.zipWith (· * ·) xs ys).sum

/-- Gonum `floats.AddScaled(dst, alpha, s)`: entrywise `dst + alpha * s`. -/
def addScaled (dst : List ℝ) (alpha : ℝ) (s : List ℝ) : List ℝ :=
  List.zipWith (fun d si => d + alpha * si) dst s

/-- Function `softThreshold` from `regression/lasso.go` (identical to the copy in
`surd`): the soft-thresholding operator, with the source's branch order. -/
def softThreshold (z lam : ℝ) : ℝ :=
  if z > lam then z - lam
  else if z < -lam then z + lam
  else 0

/-- Structure `LASSOConfig`: configuration parameters for LASSO regression.
`MaxIter` is a Go `int`, hence `ℤ`. -/
structure LASSOConfig where
  lambda : ℝ
  tolerance : ℝ
  maxIter : ℤ

/-- The `LASSO` regressor (it only stores its validated configuration). -/
structure LASSO where
  config : LASSOConfig

/-- Constructor `NewLASSO`: validates the configuration and sets defaults
(Lambda `0.01` if negative, Tolerance `1e-5` if nonpositive,
MaxIter `1000` if nonpositive). -/
def NewLASSO (cfg : LASSOConfig) : LASSO :=
  { config :=
    { lambda := if cfg.lambda < 0 then 0.01 else cfg.lambda
      tolerance := if cfg.tolerance ≤ 0 then 1e-5 else cfg.tolerance
      maxIter := if cfg.maxIter ≤ 0 then 1000 else cfg.maxIter } }

/-- Mutable state of the coordinate-descent sweep: the weight vector, the
maintained residual vector, and the sweep's running maximum `|delta|`. -/
structure CDState where
  w : List ℝ
  r : List ℝ
  maxChange : ℝ

/-- One coordinate update of `LASSO.Fit`'s inner loop (coordinate `j`):
`xDotR = dot(cols[j], residual) + oldWeight*norms[j]`, soft-threshold,
divide by the (floored) squared column norm, and apply the update only when
`|delta| > 1e-12`. -/
def cdStep (cols : List (List ℝ)) (norms : List ℝ) (lam : ℝ)
    (s : CDState) (j : ℕ) : CDState :=
  let oldW := s.w.getD j 0
  let nj := norms.getD j 0
  let xDotR := dotp (cols.getD j []) s.r + oldW * nj
  let newW := softThreshold xDotR lam / nj
  let delta := newW - oldW
  if 1e-12 < |delta| then
    { w := s.w.set j newW
      r := addScaled s.r (-delta) (cols.getD j [])
      maxChange := max s.maxChange |delta| }
  else s

/-- One full sweep over the coordinates `0 .. p-1`, starting from a fresh
`maxChange = 0` as in the source. -/
def cdSweep (cols : List (List ℝ)) (norms : List ℝ) (lam : ℝ)
    (w r : List ℝ) : CDState :=
  (List.range cols.length).foldl (cdStep cols norms lam) ⟨w, r, 0⟩

/-- The outer iteration of `LASSO.Fit`: up to `fuel` sweeps, stopping early
when a sweep's maximum change falls below the tolerance. -/
def cdLoop (cols : List (List ℝ)) (norms : List ℝ) (lam tol : ℝ) :
    ℕ → List ℝ → List ℝ → List ℝ
  | 0, w, _ => w
  | fuel+1, w, r =>
    let s := cdSweep cols norms lam w r
    if s.maxChange < tol then s.w
    else cdLoop cols norms lam tol fuel s.w s.r

/-- Cached squared column norms, floored at `1e-12` to prevent division by
zero, as in `LASSO.Fit`. -/
def lassoNorms (cols : List (List ℝ)) : List ℝ :=
  cols.map (fun c => if dotp c c < 1e-12 then 1e-12 else dotp c c)

/-- Body of `LASSO.Fit` for a non-nil predictor matrix: `p == 0` returns an
empty weight vector; otherwise weights start at zero, the residual starts as
(a copy of) the target, and the coordinate-descent loop runs.
(The source copies `y` into a length-`n` buffer; every call in this
development passes a target of length `n`, so the copy is the identity.) -/
def LASSO.FitCols (l : LASSO) (cols : List (List ℝ)) (y : List ℝ) : List ℝ :=
  if cols.length = 0 then []
  else cdLoop cols (lassoNorms cols) l.config.lambda l.config.tolerance
    l.config.maxIter.toNat (List.replicate cols.length 0) y

/-- Method `LASSO.Fit`: a nil matrix yields a nil result; otherwise `FitCols`. -/
def LASSO.Fit (l : LASSO) (X : Option (List (List ℝ))) (y : List ℝ) :
    Option (List ℝ) :=
  match X with
  | none => none
  | some cols => some (l.FitCols cols y)

/-! ### Basic length facts about the solver -/

theorem cdStep_w_length (cols : List (List ℝ)) (norms : List ℝ) (lam : ℝ)
    (s : CDState) (j : ℕ) :
    (cdStep cols norms lam s j).w.length = s.w.length := by
  unfold cdStep
  dsimp only
  split <;> simp

theorem foldl_cdStep_w_length (cols : List (List ℝ)) (norms : List ℝ)
    (lam : ℝ) (js : List ℕ) :
    ∀ s : CDState, ((js.foldl (cdStep cols norms lam) s).w.length = s.w.length) := by
  induction js with
  | nil => intro s; rfl
  | cons j t ih =>
    intro s
    simp only [List.foldl_cons]
    rw [ih, cdStep_w_length]

theorem cdSweep_w_length (cols : List (List ℝ)) (norms : List ℝ) (lam : ℝ)
    (w r : List ℝ) : (cdSweep cols norms lam w r).w.length = w.length :=
  foldl_cdStep_w_length cols norms lam (List.range cols.length) ⟨w, r, 0⟩

theorem cdLoop_length (cols : List (List ℝ)) (norms : List ℝ) (lam tol : ℝ) :
    ∀ (fuel : ℕ) (w r : List ℝ),
      (cdLoop cols norms lam tol fuel w r).length = w.length := by
  intro fuel
  induction fuel with
  | zero => intro w r; rfl
  | succ n ih =>
    intro w r
    show (let s := cdSweep cols norms lam w r
      if s.maxChange < tol then s.w
      else cdLoop cols norms lam tol n s.w s.r).length = w.length
    dsimp only
    split
    · exact cdSweep_w_length cols norms lam w r
    · rw [ih, cdSweep_w_length]

/-- C10: the default solver is total at the edge inputs the spec excludes:
nil predictor matrix returns nil, a zero-column matrix returns an empty
weight vector, and any `n x k` matrix yields a weight vector of length
exactly `k`.  (Totality of the Lean functions models panic-freedom.) -/
theorem lasso_fit_total :
    (∀ (l : LASSO) (y : List ℝ), LASSO.Fit l none y = none) ∧
    (∀ (l : LASSO) (y : List ℝ), LASSO.Fit l (some []) y = some []) ∧
    (∀ (l : LASSO) (cols : List (List ℝ)) (y : List ℝ),
      ∃ w, LASSO.Fit l (some cols) y = some w ∧ w.length = cols.length) := by
  refine ⟨fun l y => rfl, fun l y => rfl, fun l cols y => ?_⟩
  refine ⟨l.FitCols cols y, rfl, ?_⟩
  unfold LASSO.FitCols
  split
  · simp_all
  · rw [cdLoop_length, List.length_replicate]

/-- C7: `softThreshold` satisfies the exact piecewise definition
`z - lam` for `z > lam`, `z + lam` for `z < -lam`, `0` otherwise (in
particular on all of `|z| ≤ lam`), and `softThreshold z 0 = z`. -/
theorem softThreshold_spec (z lam : ℝ) (hlam : 0 ≤ lam) :
    ((lam < z → softThreshold z lam = z - lam) ∧
     (z < -lam → softThreshold z lam = z + lam) ∧
     (¬ lam < z → ¬ z < -lam → softThreshold z lam = 0) ∧
     (|z| ≤ lam → softThreshold z lam = 0)) ∧
    softThreshold z 0 = z := by
  constructor
  · refine ⟨?_, ?_, ?_, ?_⟩
    · intro h; simp [softThreshold, h]
    · intro h
      have h2 : ¬ z > lam := by
        intro hz; rcases abs_cases z with ⟨_, _⟩ <;> linarith
      simp [softThreshold, h, h2]
    · intro h1 h2; simp [softThreshold, h1, h2]
    · intro h
      rcases abs_le.mp h with ⟨hl, hr⟩
      have h1 : ¬ z > lam := by linarith
      have h2 : ¬ z < -lam := by linarith
      simp [softThreshold, h1, h2]
  · rcases lt_trichotomy z 0 with h | h | h
    · have h1 : ¬ z > (0:ℝ) := by linarith
      simp [softThreshold, h1, h]
    · simp [softThreshold, h]
    · simp [softThreshold, h]

/-- Witness for C7 at `z = 5`, `lam = 2`. -/
theorem softThreshold_spec_witness :
    (0:ℝ) ≤ 2 ∧
    ((((2:ℝ) < 5 → softThreshold 5 2 = 5 - 2) ∧
      ((5:ℝ) < -2 → softThreshold 5 2 = 5 + 2) ∧
      (¬ (2:ℝ) < 5 → ¬ (5:ℝ) < -2 → softThreshold 5 2 = 0) ∧
      (|(5:ℝ)| ≤ 2 → softThreshold 5 2 = 0)) ∧
     softThreshold 5 0 = 5) :=
  ⟨by norm_num, softThreshold_spec 5 2 (by norm_num)⟩

theorem cdLoop_succ (cols : List (List ℝ)) (norms : List ℝ) (lam tol : ℝ)
    (fuel : ℕ) (w r : List ℝ) :
    cdLoop cols norms lam tol (fuel+1) w r =
      (if (cdSweep cols norms lam w r).maxChange < tol
       then (cdSweep cols norms lam w r).w
       else cdLoop cols norms lam tol fuel (cdSweep cols norms lam w r).w
              (cdSweep cols norms lam w r).r) := rfl

/-- C6: with `Lambda = 0` the default solver's `Fit` recovers the
ordinary least-squares solution on predictors `[1,2,3]`, target `[2,4,6]`:
the weight vector is exactly `[2]` (hence within `1e-12` of `2.0`).
The first sweep sets the weight to `2` and zeroes the residual; the second
sweep changes nothing, so the tolerance check stops the loop. -/
theorem lasso_lambda_zero_ols :
    LASSO.Fit (NewLASSO ⟨0, 0, 0⟩) (some [[1, 2, 3]]) [2, 4, 6] = some [2] := by
  have hcfg : NewLASSO ⟨0, 0, 0⟩ =
      ⟨{ lambda := 0, tolerance := 1e-5, maxIter := 1000 }⟩ := by
    unfold NewLASSO
    norm_num
  have hnorms : lassoNorms [[1, 2, 3]] = [14] := by
    unfold lassoNorms
    norm_num [dotp]
  have h1 : cdSweep [[1, 2, 3]] [14] 0 [0] [2, 4, 6] =
      ⟨[2], [0, 0, 0], 2⟩ := by
    unfold cdSweep
    rw [show ([[1, 2, 3]] : List (List ℝ)).length = 1 from rfl,
      show List.range 1 = [0] from rfl]
    simp only [List.foldl_cons, List.foldl_nil]
    unfold cdStep
    norm_num [dotp, addScaled, softThreshold]
  have h2 : cdSweep [[1, 2, 3]] [14] 0 [2] [0, 0, 0] =
      ⟨[2], [0, 0, 0], 0⟩ := by
    unfold cdSweep
    rw [show ([[1, 2, 3]] : List (List ℝ)).length = 1 from rfl,
      show List.range 1 = [0] from rfl]
    simp only [List.foldl_cons, List.foldl_nil]
    unfold cdStep
    norm_num [dotp, addScaled, softThreshold]
  show some _ = some _
  congr 1
  unfold LASSO.FitCols
  rw [hcfg, hnorms]
  simp only [List.length_cons, List.length_nil]
  rw [if_neg (by norm_num : ¬ (0+1 = 0))]
  rw [show ((⟨{ lambda := 0, tolerance := 1e-5, maxIter := 1000 }⟩ : LASSO).config.maxIter.toNat)
      = 999 + 1 from rfl]
  rw [cdLoop_succ]
  rw [show (List.replicate (0+1) (0:ℝ)) = [0] from rfl]
  rw [h1]
  rw [if_neg (by norm_num :
    ¬ ((⟨[2], [0, 0, 0], 2⟩ : CDState).maxChange <
        (⟨{ lambda := 0, tolerance := 1e-5, maxIter := 1000 }⟩ : LASSO).config.tolerance))]
  rw [show (999:ℕ) = 998 + 1 from rfl, cdLoop_succ, h2]
  rw [if_pos (by norm_num :
    ((⟨[2], [0, 0, 0], 0⟩ : CDState).maxChange <
      (⟨{ lambda := 0, tolerance := 1e-5, maxIter := 1000 }⟩ : LASSO).config.tolerance))]

/-! ### Vector algebra lemmas -/

theorem dotp_nil_left (ys : List ℝ) : dotp [] ys = 0 := rfl

theorem dotp_nil_right (xs : List ℝ) : dotp xs [] = 0 := by
  cases xs <;> rfl

theorem dotp_cons (x y : ℝ) (xs ys : List ℝ) :
    dotp (x :: xs) (y :: ys) = x * y + dotp xs ys := rfl

theorem addScaled_cons (x : ℝ) (xs : List ℝ) (alpha : ℝ) (si : ℝ) (s : List ℝ) :
    addScaled (x :: xs) alpha (si :: s) = (x + alpha * si) :: addScaled xs alpha s := rfl

theorem dotp_self_nonneg (xs : List ℝ) : 0 ≤ dotp xs xs := by
  induction xs with
  | nil => simp [dotp]
  | cons x t ih => rw [dotp_cons]; nlinarith [sq_nonneg x]

theorem dotp_eq_zero_of_self_eq_zero (c : List ℝ) (h : dotp c c = 0) :
    ∀ y, dotp c y = 0 := by
  induction c with
  | nil => intro y; rfl
  | cons a t ih =>
    intro y
    rw [dotp_cons] at h
    have ha : a = 0 := by nlinarith [dotp_self_nonneg t, sq_nonneg a]
    have ht : dotp t t = 0 := by nlinarith [sq_nonneg a]
    cases y with
    | nil => exact dotp_nil_right _
    | cons b u => rw [dotp_cons, ha, ih ht u]; ring

theorem dotp_addScaled_self (c : List ℝ) (d : ℝ) :
    ∀ r : List ℝ, c.length = r.length →
      dotp (addScaled r (-d) c) (addScaled r (-d) c) =
        dotp r r - 2 * d * dotp c r + d ^ 2 * dotp c c := by
  induction c with
  | nil =>
    intro r h
    cases r with
    | nil => simp [addScaled, dotp]
    | cons b u => simp at h
  | cons a t ih =>
    intro r h
    cases r with
    | nil => simp at h
    | cons b u =>
      have h' : t.length = u.length := by simpa using h
      simp only [addScaled_cons, dotp_cons]
      rw [ih u h']
      ring

/-- L1 norm of a weight vector. -/
def l1norm (w : List ℝ) : ℝ := (w.map (fun x => |x|)).sum

theorem l1norm_nil : l1norm [] = 0 := rfl

theorem l1norm_cons (x : ℝ) (xs : List ℝ) : l1norm (x :: xs) = |x| + l1norm xs := rfl

theorem l1norm_nonneg (w : List ℝ) : 0 ≤ l1norm w := by
  induction w with
  | nil => simp [l1norm]
  | cons x t ih => rw [l1norm_cons]; have := abs_nonneg x; linarith

theorem l1norm_replicate_zero (n : ℕ) : l1norm (List.replicate n (0:ℝ)) = 0 := by
  induction n with
  | zero => rfl
  | succ k ih => rw [List.replicate_succ, l1norm_cons, ih]; simp

theorem l1norm_set (w : List ℝ) (j : ℕ) (v : ℝ) :
    ∀ _ : j < w.length,
      l1norm (w.set j v) = l1norm w - |w.getD j 0| + |v| := by
  induction w generalizing j with
  | nil => intro h; simp at h
  | cons a t ih =>
    intro h
    cases j with
    | zero => simp [l1norm_cons]; ring
    | succ n =>
      have hn : n < t.length := by simpa using h
      rw [List.set_cons_succ, l1norm_cons, l1norm_cons, ih n hn,
        List.getD_cons_succ]
      ring

theorem getD_set {α : Type} (l : List α) (i i' : ℕ) (v d : α) :
    (l.set i v).getD i' d = if i = i' ∧ i < l.length then v else l.getD i' d := by
  induction l generalizing i i' with
  | nil => simp
  | cons a t ih =>
    cases i with
    | zero =>
      cases i' with
      | zero => simp
      | succ m => simp
    | succ n =>
      cases i' with
      | zero => simp
      | succ m =>
        rw [List.set_cons_succ, List.getD_cons_succ, List.getD_cons_succ, ih n m]
        by_cases hnm : n = m
        · subst hnm
          by_cases hlt : n < t.length
          · rw [if_pos ⟨rfl, hlt⟩, if_pos ⟨rfl, by simpa using Nat.succ_lt_succ hlt⟩]
          · rw [if_neg (by tauto), if_neg (by
              rintro ⟨-, hc⟩
              exact hlt (by simpa using Nat.lt_of_succ_lt_succ hc))]
        · rw [if_neg (by tauto), if_neg (by
            rintro ⟨hc, -⟩
            exact hnm (by omega))]

theorem getD_replicate_zero (n j : ℕ) : (List.replicate n (0:ℝ)).getD j 0 = 0 := by
  induction n generalizing j with
  | zero => simp
  | succ k ih =>
    cases j with
    | zero => simp [List.replicate_succ]
    | succ m => rw [List.replicate_succ, List.getD_cons_succ]; exact ih m

theorem map_range_getD {α : Type} (l : List α) (d : α) :
    (List.range l.length).map (fun i => l.getD i d) = l := by
  apply List.ext_getElem
  · simp
  · intro n h1 h2
    simp only [List.getElem_map, List.getElem_range]
    exact List.getD_eq_getElem l d h2

/-! ### Residual bookkeeping for the solver -/

/-- Entry `i` of the prediction vector `X·w` when the matrix is given by its
columns: the sum over `j` of `w_j * cols[j][i]`. -/
def predAt (cols : List (List ℝ)) (w : List ℝ) (i : ℕ) : ℝ :=
  (List.zipWith (fun c wj => wj * c.getD i 0) cols w).sum

/-- Function `calculateResiduals` from the `surd` package: `y - X·w`, entrywise. -/
def calculateResiduals (cols : List (List ℝ)) (y w : List ℝ) : List ℝ :=
  (List.range y.length).map (fun i => y.getD i 0 - predAt cols w i)

theorem predAt_cons (c : List ℝ) (cs : List (List ℝ)) (wj : ℝ) (ws : List ℝ)
    (i : ℕ) : predAt (c :: cs) (wj :: ws) i = wj * c.getD i 0 + predAt cs ws i := rfl

theorem predAt_nil_w (cols : List (List ℝ)) (i : ℕ) : predAt cols [] i = 0 := by
  cases cols <;> rfl

theorem predAt_replicate_zero (cols : List (List ℝ)) (i : ℕ) :
    predAt cols (List.replicate cols.length 0) i = 0 := by
  induction cols with
  | nil => rfl
  | cons c cs ih =>
    rw [List.length_cons, List.replicate_succ, predAt_cons, ih]
    ring

theorem length_calculateResiduals (cols : List (List ℝ)) (y w : List ℝ) :
    (calculateResiduals cols y w).length = y.length := by
  simp [calculateResiduals]

theorem calculateResiduals_zero (cols : List (List ℝ)) (y : List ℝ) :
    calculateResiduals cols y (List.replicate cols.length 0) = y := by
  unfold calculateResiduals
  have h : ∀ i, y.getD i 0 - predAt cols (List.replicate cols.length 0) i
      = y.getD i 0 := by
    intro i; rw [predAt_replicate_zero]; ring
  calc (List.range y.length).map
        (fun i => y.getD i 0 - predAt cols (List.replicate cols.length 0) i)
      = (List.range y.length).map (fun i => y.getD i 0) := by
        apply List.map_congr_left; intro i _; exact h i
    _ = y := map_range_getD y 0

theorem calculateResiduals_nil_w (cols : List (List ℝ)) (y : List ℝ) :
    calculateResiduals cols y [] = y := by
  unfold calculateResiduals
  calc (List.range y.length).map (fun i => y.getD i 0 - predAt cols [] i)
      = (List.range y.length).map (fun i => y.getD i 0) := by
        apply List.map_congr_left; intro i _; rw [predAt_nil_w]; ring
    _ = y := map_range_getD y 0

theorem predAt_set (j : ℕ) :
    ∀ (cols : List (List ℝ)) (w : List ℝ) (v : ℝ) (i : ℕ),
      j < cols.length → w.length = cols.length →
      predAt cols (w.set j v) i =
        predAt cols w i + (v - w.getD j 0) * ((cols.getD j []).getD i 0) := by
  induction j with
  | zero =>
    intro cols w v i hj hw
    cases cols with
    | nil => simp at hj
    | cons c cs =>
      cases w with
      | nil => simp at hw
      | cons b ws =>
        rw [List.set_cons_zero, predAt_cons, predAt_cons]
        simp only [List.getD_cons_zero]
        ring
  | succ n ih =>
    intro cols w v i hj hw
    cases cols with
    | nil => simp at hj
    | cons c cs =>
      cases w with
      | nil => simp at hw
      | cons b ws =>
        have hj' : n < cs.length := by simpa using hj
        have hw' : ws.length = cs.length := by simpa using hw
        rw [List.set_cons_succ, predAt_cons, predAt_cons, ih cs ws v i hj' hw']
        simp only [List.getD_cons_succ]
        ring

theorem addScaled_map_range (n : ℕ) (f : ℕ → ℝ) (alpha : ℝ) (s : List ℝ)
    (hs : s.length = n) :
    addScaled ((List.range n).map f) alpha s =
      (List.range n).map (fun i => f i + alpha * s.getD i 0) := by
  apply List.ext_getElem
  · simp [addScaled, hs]
  · intro i h1 h2
    have hi : i < n := by simpa using h2
    have his : i < s.length := by omega
    simp only [addScaled, List.getElem_zipWith, List.getElem_map,
      List.getElem_range]
    rw [List.getD_eq_getElem s 0 his]

theorem calculateResiduals_set (cols : List (List ℝ)) (y w : List ℝ) (j : ℕ)
    (v : ℝ) (hj : j < cols.length) (hw : w.length = cols.length)
    (hc : (cols.getD j []).length = y.length) :
    calculateResiduals cols y (w.set j v) =
      addScaled (calculateResiduals cols y w) (-(v - w.getD j 0)) (cols.getD j []) := by
  unfold calculateResiduals
  rw [addScaled_map_range y.length _ _ _ hc]
  apply List.map_congr_left
  intro i _
  rw [predAt_set j cols w v i hj hw]
  ring

/-! ### The coordinate-descent objective never increases -/

/-- Scalar core: `softThreshold b lam / a` is the global minimiser of the
one-dimensional function `t ↦ a·t² − 2·b·t + 2·lam·|t|` (twice the
coordinate-restricted LASSO objective, up to a constant). -/
theorem softThreshold_min (a lam b w : ℝ) (ha : 0 < a) (hlam : 0 ≤ lam) :
    a * (softThreshold b lam / a) ^ 2 - 2 * b * (softThreshold b lam / a)
        + 2 * lam * |softThreshold b lam / a| ≤
      a * w ^ 2 - 2 * b * w + 2 * lam * |w| := by
  unfold softThreshold
  by_cases hb1 : b > lam
  · rw [if_pos hb1]
    set u := (b - lam) / a with hu
    have hau : a * u = b - lam := by rw [hu]; field_simp
    have hu0 : 0 ≤ u := div_nonneg (by linarith) ha.le
    rw [abs_of_nonneg hu0]
    rcases abs_cases w with ⟨hw, hw0⟩ | ⟨hw, hw0⟩ <;> rw [hw]
    · nlinarith [mul_nonneg ha.le (sq_nonneg (w - u)), hau]
    · nlinarith [mul_nonneg ha.le (sq_nonneg (w - u)), hau,
        mul_nonneg hu0 (by linarith : (0:ℝ) ≤ b - lam),
        mul_nonneg (by linarith : (0:ℝ) ≤ -w) (by linarith : (0:ℝ) ≤ lam)]
  · rw [if_neg hb1]
    by_cases hb2 : b < -lam
    · rw [if_pos hb2]
      set u := (b + lam) / a with hu
      have hau : a * u = b + lam := by rw [hu]; field_simp
      have hu0 : u ≤ 0 := div_nonpos_of_nonpos_of_nonneg (by linarith) ha.le
      rw [abs_of_nonpos hu0]
      rcases abs_cases w with ⟨hw, hw0⟩ | ⟨hw, hw0⟩ <;> rw [hw]
      · nlinarith [mul_nonneg ha.le (sq_nonneg (w - u)), hau,
          mul_nonneg (by linarith : (0:ℝ) ≤ -u) (by linarith : (0:ℝ) ≤ -(b + lam)),
          mul_nonneg hw0 hlam]
      · nlinarith [mul_nonneg ha.le (sq_nonneg (w - u)), hau]
    · rw [if_neg hb2]
      push_neg at hb1 hb2
      rw [zero_div, abs_zero]
      rcases abs_cases w with ⟨hw, hw0⟩ | ⟨hw, hw0⟩ <;> rw [hw]
      · nlinarith [mul_nonneg ha.le (sq_nonneg w),
          mul_nonneg hw0 (by linarith : (0:ℝ) ≤ lam - b)]
      · nlinarith [mul_nonneg ha.le (sq_nonneg w),
          mul_nonneg (by linarith : (0:ℝ) ≤ -w) (by linarith : (0:ℝ) ≤ lam + b)]

/-- Invariant of the coordinate-descent state: the weight vector has one
entry per column, the maintained residual equals `y − X·w`, weights of
all-zero columns are zero, and the (doubled) objective
`‖r‖² + 2·lam·‖w‖₁` never exceeds its initial value `‖y‖²`. -/
def CDInv (cols : List (List ℝ)) (y : List ℝ) (lam : ℝ) (w r : List ℝ) : Prop :=
  w.length = cols.length ∧
  r = calculateResiduals cols y w ∧
  (∀ j, j < cols.length → dotp (cols.getD j []) (cols.getD j []) = 0 →
    w.getD j 0 = 0) ∧
  dotp r r + 2 * lam * l1norm w ≤ dotp y y

theorem cdStep_apply (cols : List (List ℝ)) (norms : List ℝ) (lam : ℝ)
    (s : CDState) (j : ℕ) :
    cdStep cols norms lam s j =
      (if 1e-12 < |softThreshold (dotp (cols.getD j []) s.r +
            s.w.getD j 0 * norms.getD j 0) lam / norms.getD j 0 - s.w.getD j 0| then
        { w := s.w.set j (softThreshold (dotp (cols.getD j []) s.r +
              s.w.getD j 0 * norms.getD j 0) lam / norms.getD j 0)
          r := addScaled s.r (-(softThreshold (dotp (cols.getD j []) s.r +
              s.w.getD j 0 * norms.getD j 0) lam / norms.getD j 0 - s.w.getD j 0))
              (cols.getD j [])
          maxChange := max s.maxChange |softThreshold (dotp (cols.getD j []) s.r +
              s.w.getD j 0 * norms.getD j 0) lam / norms.getD j 0 - s.w.getD j 0| }
      else s) := rfl

theorem lassoNorms_getD (cols : List (List ℝ)) (j : ℕ) (hj : j < cols.length) :
    (lassoNorms cols).getD j 0 =
      if dotp (cols.getD j []) (cols.getD j []) < 1e-12 then 1e-12
      else dotp (cols.getD j []) (cols.getD j []) := by
  unfold lassoNorms
  rw [List.getD_eq_getElem _ _ (by simpa using hj), List.getElem_map,
    List.getD_eq_getElem _ _ hj]

theorem softThreshold_zero_left (lam : ℝ) (hlam : 0 ≤ lam) :
    softThreshold 0 lam = 0 := by
  unfold softThreshold
  rw [if_neg (by linarith), if_neg (by intro h; linarith [neg_nonpos_of_nonneg hlam])]

theorem cdStep_inv (cols : List (List ℝ)) (y : List ℝ) (lam : ℝ)
    (hlam : 0 ≤ lam) (hcl : ∀ c ∈ cols, c.length = y.length)
    (hdich : ∀ c ∈ cols, dotp c c = 0 ∨ (1e-12:ℝ) ≤ dotp c c)
    (s : CDState) (j : ℕ) (hs : CDInv cols y lam s.w s.r) :
    CDInv cols y lam (cdStep cols (lassoNorms cols) lam s j).w
      (cdStep cols (lassoNorms cols) lam s j).r := by
  obtain ⟨hlen, hrep, hzero, hobj⟩ := hs
  rw [cdStep_apply]
  by_cases hj : j < cols.length
  case neg =>
    have hc : cols.getD j [] = [] := List.getD_eq_default _ _ (by omega)
    have hn : (lassoNorms cols).getD j 0 = 0 := by
      apply List.getD_eq_default
      unfold lassoNorms
      simp only [List.length_map]
      omega
    have hw : s.w.getD j 0 = 0 := List.getD_eq_default _ _ (by omega)
    rw [if_neg (by
      rw [hc, hn, hw, dotp_nil_left]
      norm_num [softThreshold_zero_left lam hlam])]
    exact ⟨hlen, hrep, hzero, hobj⟩
  case pos =>
    have hcmem : cols.getD j [] ∈ cols := by
      rw [List.getD_eq_getElem _ _ hj]
      exact List.getElem_mem hj
    have hclen : (cols.getD j []).length = y.length := hcl _ hcmem
    rcases hdich _ hcmem with hz | hpos
    · -- all-zero column: the step is a no-op
      have hw0 : s.w.getD j 0 = 0 := hzero j hj hz
      have hdr : dotp (cols.getD j []) s.r = 0 :=
        dotp_eq_zero_of_self_eq_zero _ hz s.r
      rw [if_neg (by
        rw [hdr, hw0]
        norm_num [softThreshold_zero_left lam hlam])]
      exact ⟨hlen, hrep, hzero, hobj⟩
    · -- genuine column: exact coordinate minimisation, objective decreases
      have ha : (0:ℝ) < dotp (cols.getD j []) (cols.getD j []) := by
        have : (0:ℝ) < 1e-12 := by norm_num
        linarith
      have hnj : (lassoNorms cols).getD j 0 = dotp (cols.getD j []) (cols.getD j []) := by
        rw [lassoNorms_getD cols j hj, if_neg (not_lt.mpr hpos)]
      rw [hnj]
      set A := dotp (cols.getD j []) (cols.getD j []) with hA
      set B := dotp (cols.getD j []) s.r with hB
      set W := s.w.getD j 0 with hW
      set T := softThreshold (B + W * A) lam / A with hT
      by_cases hup : (1e-12:ℝ) < |T - W|
      · rw [if_pos hup]
        show CDInv cols y lam (s.w.set j T)
          (addScaled s.r (-(T - W)) (cols.getD j []))
        have hjw : j < s.w.length := by omega
        have hrlen : (cols.getD j []).length = s.r.length := by
          rw [hrep, length_calculateResiduals]; exact hclen
        have hrep2 : addScaled s.r (-(T - W)) (cols.getD j []) =
            calculateResiduals cols y (s.w.set j T) := by
          rw [hrep,
            calculateResiduals_set cols y s.w j T hj hlen hclen]
        refine ⟨by simp [hlen], hrep2, ?_, ?_⟩
        · intro k hk hkz
          rw [getD_set]
          by_cases hkj : j = k
          · subst hkj
            exact absurd hkz (by rw [← hA]; intro h; rw [h] at ha; exact lt_irrefl 0 ha)
          · rw [if_neg (by tauto)]
            exact hzero k hk hkz
        · have hexp := dotp_addScaled_self (cols.getD j []) (T - W) s.r hrlen
          rw [hexp, l1norm_set s.w j T hjw, ← hB, ← hA, ← hW]
          have key := softThreshold_min A lam (B + W * A) W ha hlam
          rw [← hT] at key
          have hid : dotp s.r s.r - 2 * (T - W) * B + (T - W) ^ 2 * A
                + 2 * lam * (l1norm s.w - |W| + |T|) =
              (dotp s.r s.r + 2 * lam * l1norm s.w) +
                ((A * T ^ 2 - 2 * (B + W * A) * T + 2 * lam * |T|) -
                 (A * W ^ 2 - 2 * (B + W * A) * W + 2 * lam * |W|)) := by
            ring
          linarith [hobj, key, hid.le, hid.ge]
      · rw [if_neg hup]
        exact ⟨hlen, hrep, hzero, hobj⟩

theorem foldl_cdStep_inv (cols : List (List ℝ)) (y : List ℝ) (lam : ℝ)
    (hlam : 0 ≤ lam) (hcl : ∀ c ∈ cols, c.length = y.length)
    (hdich : ∀ c ∈ cols, dotp c c = 0 ∨ (1e-12:ℝ) ≤ dotp c c)
    (js : List ℕ) :
    ∀ s : CDState, CDInv cols y lam s.w s.r →
      CDInv cols y lam ((js.foldl (cdStep cols (lassoNorms cols) lam) s).w)
        ((js.foldl (cdStep cols (lassoNorms cols) lam) s).r) := by
  induction js with
  | nil => intro s hs; exact hs
  | cons j t ih =>
    intro s hs
    simp only [List.foldl_cons]
    exact ih _ (cdStep_inv cols y lam hlam hcl hdich s j hs)

theorem cdSweep_inv (cols : List (List ℝ)) (y : List ℝ) (lam : ℝ)
    (hlam : 0 ≤ lam) (hcl : ∀ c ∈ cols, c.length = y.length)
    (hdich : ∀ c ∈ cols, dotp c c = 0 ∨ (1e-12:ℝ) ≤ dotp c c)
    (w r : List ℝ) (h : CDInv cols y lam w r) :
    CDInv cols y lam (cdSweep cols (lassoNorms cols) lam w r).w
      (cdSweep cols (lassoNorms cols) lam w r).r :=
  foldl_cdStep_inv cols y lam hlam hcl hdich (List.range cols.length) ⟨w, r, 0⟩ h

theorem cdLoop_inv (cols : List (List ℝ)) (y : List ℝ) (lam tol : ℝ)
    (hlam : 0 ≤ lam) (hcl : ∀ c ∈ cols, c.length = y.length)
    (hdich : ∀ c ∈ cols, dotp c c = 0 ∨ (1e-12:ℝ) ≤ dotp c c) :
    ∀ (fuel : ℕ) (w r : List ℝ), CDInv cols y lam w r →
      CDInv cols y lam (cdLoop cols (lassoNorms cols) lam tol fuel w r)
        (calculateResiduals cols y (cdLoop cols (lassoNorms cols) lam tol fuel w r)) := by
  intro fuel
  induction fuel with
  | zero =>
    intro w r h
    have h0 : cdLoop cols (lassoNorms cols) lam tol 0 w r = w := rfl
    rw [h0]
    obtain ⟨h1, h2, h3, h4⟩ := h
    exact ⟨h1, rfl, h3, by rw [← h2]; exact h4⟩
  | succ n ih =>
    intro w r h
    rw [cdLoop_succ]
    have hsw := cdSweep_inv cols y lam hlam hcl hdich w r h
    by_cases hcond : (cdSweep cols (lassoNorms cols) lam w r).maxChange < tol
    · rw [if_pos hcond]
      obtain ⟨h1, h2, h3, h4⟩ := hsw
      exact ⟨h1, rfl, h3, by rw [← h2]; exact h4⟩
    · rw [if_neg hcond]
      exact ih _ _ hsw

/-- The default solver never increases the squared residual norm:
`‖y − X·w‖² ≤ ‖y‖²` for the returned weights `w`, whenever the penalty is
nonnegative, columns match the target's length, and every column's squared
norm is either exactly zero or at least the `1e-12` floor (true of
standardized data). -/
theorem lasso_FitCols_bound (l : LASSO) (cols : List (List ℝ)) (y : List ℝ)
    (hlam : 0 ≤ l.config.lambda) (hcl : ∀ c ∈ cols, c.length = y.length)
    (hdich : ∀ c ∈ cols, dotp c c = 0 ∨ (1e-12:ℝ) ≤ dotp c c) :
    (l.FitCols cols y).length = cols.length ∧
    dotp (calculateResiduals cols y (l.FitCols cols y))
        (calculateResiduals cols y (l.FitCols cols y)) ≤ dotp y y := by
  unfold LASSO.FitCols
  split
  case isTrue h =>
    constructor
    · simp [h]
    · rw [calculateResiduals_nil_w]
  case isFalse h =>
    have hinit : CDInv cols y l.config.lambda (List.replicate cols.length 0) y := by
      refine ⟨by simp, (calculateResiduals_zero cols y).symm, ?_, ?_⟩
      · intro j _ _; exact getD_replicate_zero _ _
      · rw [l1norm_replicate_zero]; linarith
    have hout := cdLoop_inv cols y l.config.lambda l.config.tolerance hlam hcl
      hdich l.config.maxIter.toNat (List.replicate cols.length 0) y hinit
    obtain ⟨h1, -, -, h4⟩ := hout
    refine ⟨h1, ?_⟩
    have hl1 := l1norm_nonneg (cdLoop cols (lassoNorms cols) l.config.lambda
      l.config.tolerance l.config.maxIter.toNat (List.replicate cols.length 0) y)
    nlinarith [hl1, hlam, mul_nonneg hlam hl1]

/-! ### The surd package: data model and operations -/

/-- Constant `math.MaxFloat64`, exactly: `(2 - 2^-52)·2^1023`. -/
def maxFloat64 : ℝ := 2 ^ 1024 - 2 ^ 971

/-- Function `computeMSE`: mean of the squared residuals, `0` for an empty slice. -/
def computeMSE (residuals : List ℝ) : ℝ :=
  if residuals.length = 0 then 0
  else (residuals.map (fun r => r * r)).sum / residuals.length

/-- Configuration `Config` for the SURD algorithm (`Workers` and `Verbose` carry no
algorithmic content in this sequential model but are kept for fidelity). -/
structure Config where
  lambda : ℝ
  tolerance : ℝ
  maxIter : ℤ
  workers : ℤ
  verbose : Bool

/-- Structure `GraphResult`: causal-discovery results.  `Order` stores Go `int`s
(it receives `bestVar`, which is initialised to `-1`), hence `List ℤ`. -/
structure GraphResult where
  Adjacency : List (List Bool)
  Order : List ℤ
  Residuals : List ℝ
  Weights : List (List ℝ)

/-- A `SURD` instance: validated configuration plus the default regressor
built by `New`. -/
structure SURDM where
  config : Config
  regressor : LASSO

/-- Constructor `New`: validates the configuration (defaults `0.01`, `1e-5`, `1000`, `4`)
and builds the default LASSO regressor from the validated values. -/
def New (cfg : Config) : SURDM :=
  let v : Config :=
    { lambda := if cfg.lambda ≤ 0 then 0.01 else cfg.lambda
      tolerance := if cfg.tolerance ≤ 0 then 1e-5 else cfg.tolerance
      maxIter := if cfg.maxIter ≤ 0 then 1000 else cfg.maxIter
      workers := if cfg.workers ≤ 0 then 4 else cfg.workers
      verbose := cfg.verbose }
  { config := v
    regressor := NewLASSO ⟨v.lambda, v.tolerance, v.maxIter⟩ }

/-- Function `countActive`: number of active (`true`) entries of the remaining mask. -/
def countActive (remaining : List Bool) : ℕ := remaining.count true

/-- Column mean `Σx/n` as computed by `standardize`. -/
def colMean (col : List ℝ) : ℝ := col.sum / col.length

/-- Population column variance `Σ(x-mean)²/n` as computed by `standardize`. -/
def colVariance (col : List ℝ) : ℝ :=
  (col.map (fun v => (v - colMean col) * (v - colMean col))).sum / col.length

/-- Per-column body of `standardize`: a column whose population standard
deviation is below `1e-12` is zeroed; otherwise each entry becomes
`(x - mean)/stddev`. -/
def standardizeCol (col : List ℝ) : List ℝ :=
  if Real.sqrt (colVariance col) < 1e-12 then List.replicate col.length 0
  else col.map (fun v => (v - colMean col) / Real.sqrt (colVariance col))

/-- Function `standardize`: column-wise normalisation of a fresh copy of the input
(the embedding is pure, so the input is trivially not mutated). -/
def standardize (X : List (List ℝ)) : List (List ℝ) := X.map standardizeCol

/-- Structure `varResult`: one task result `(idx, mse, weights)`. -/
structure VarResult where
  idx : ℕ
  mse : ℝ
  weights : List ℝ

/-- Function `prepareData`: target column plus the predictor matrix made of the
active columns other than the target, in ascending index order; `none`
(Go `nil`) when `activeCount - 1 <= 0`. -/
def prepareData (x : List (List ℝ)) (target : ℕ) (remaining : List Bool) :
    Option (List (List ℝ)) × List ℝ :=
  let y := x.getD target []
  if countActive remaining ≤ 1 then (none, y)
  else
    (some (((List.range x.length).filter
        (fun j => remaining.getD j false && j != target)).map
      (fun j => x.getD j [])), y)

/-- Function `processVariables`: one task per active candidate `j`.  A task whose
subproblem has no predictors reports the sentinel `math.MaxFloat64` and an
empty weight vector; otherwise it fits the regressor and reports the MSE of
the residuals.  The list is produced in ascending index order, the canonical
(single-worker) arrival order of the Go channel. -/
def processVariables (s : SURDM) (stdX : List (List ℝ)) (remaining : List Bool)
    (n p : ℕ) : List VarResult :=
  ((List.range p).filter (fun j => remaining.getD j false)).map (fun j =>
    match prepareData stdX j remaining with
    | (none, _) => ⟨j, maxFloat64, []⟩
    | (some xSub, y) =>
      let weights := s.regressor.FitCols xSub y
      ⟨j, computeMSE (calculateResiduals xSub y weights), weights⟩)

/-- Loop body of `findBestVariable`: keep the incoming result only when its
MSE is strictly below the current best. -/
def fbvStep (best : ℤ × ℝ × List ℝ) (res : VarResult) : ℤ × ℝ × List ℝ :=
  if res.mse < best.2.1 then ((res.idx : ℤ), res.mse, res.weights) else best

/-- Function `findBestVariable`: drains the result collection in its arrival order,
keeping the first result whose MSE is strictly below the current best;
the fold starts from `(-1, math.MaxFloat64, nil)`. -/
def findBestVariable (results : List VarResult) : ℤ × ℝ × List ℝ :=
  results.foldl fbvStep (-1, maxFloat64, [])

/-- Function `processLastVariable`: appends the sole remaining index to the order,
records the MSE of its standardized column, and deactivates it.
(If no index is active the Go loop would spin forever; that state is
unreachable and the model returns the state unchanged.) -/
def processLastVariable (stdX : List (List ℝ)) (result : GraphResult)
    (remaining : List Bool) (n : ℕ) : GraphResult × List Bool :=
  match (List.range remaining.length).find? (fun j => remaining.getD j false) with
  | none => (result, remaining)
  | some j =>
    ({ result with
        Order := result.Order ++ [(j : ℤ)]
        Residuals := result.Residuals.set result.Order.length
          (computeMSE (stdX.getD j [])) },
      remaining.set j false)

/-- Two-dimensional update `m[i][j] = v` on a list of rows. -/
def set2 {α : Type} (m : List (List α)) (i j : ℕ) (v : α) : List (List α) :=
  m.set i ((m.getD i []).set j v)

/-- Two-dimensional read `m[i][j]` with a default. -/
def getAt2 {α : Type} (m : List (List α)) (i j : ℕ) (d : α) : α :=
  (m.getD i []).getD j d

/-- One step of `updateResults`' edge loop: state is
`(Adjacency, Weights, idx)`; inactive or selected `j` is skipped without
consuming a weight; otherwise weight `bestWeights[idx]` creates an edge
`bestVar → j` when its magnitude exceeds the tolerance.  (Go indexes
`Adjacency[bestVar]` with an `int` and would panic were `bestVar`
negative; the model clamps with `toNat`, and the orchestrator invariant
shows `bestVar ≥ 0` in every reachable iteration.) -/
def updateEdgesStep (tol : ℝ) (bestVar : ℤ) (bestWeights : List ℝ)
    (remaining : List Bool)
    (st : List (List Bool) × List (List ℝ) × ℕ) (j : ℕ) :
    List (List Bool) × List (List ℝ) × ℕ :=
  if !(remaining.getD j false) || ((j : ℤ) == bestVar) then st
  else if tol < |bestWeights.getD st.2.2 0| then
    (set2 st.1 bestVar.toNat j true,
     set2 st.2.1 bestVar.toNat j (bestWeights.getD st.2.2 0), st.2.2 + 1)
  else (st.1, st.2.1, st.2.2 + 1)

/-- Function `updateResults`: append the selected variable to the order, record its
MSE at the current step position, run the edge loop over `j = 0..p-1`, and
deactivate the selected variable. -/
def updateResults (s : SURDM) (result : GraphResult) (bestVar : ℤ)
    (bestMSE : ℝ) (bestWeights : List ℝ) (remaining : List Bool) (p : ℕ) :
    GraphResult × List Bool :=
  let upd := (List.range p).foldl
    (updateEdgesStep s.config.tolerance bestVar bestWeights remaining)
    (result.Adjacency, result.Weights, 0)
  ({ Adjacency := upd.1
     Order := result.Order ++ [bestVar]
     Residuals := result.Residuals.set result.Order.length bestMSE
     Weights := upd.2.1 },
   remaining.set bestVar.toNat false)

/-- The `GraphResult` as initialised by `Fit`: `p×p` falses and zeroes,
empty order. -/
def initResult (p : ℕ) : GraphResult :=
  { Adjacency := List.replicate p (List.replicate p false)
    Order := []
    Residuals := List.replicate p 0
    Weights := List.replicate p (List.replicate p 0) }

/-- The main loop of `Fit`.  Each Go iteration appends exactly one entry to
`Order`, so the loop `for len(result.Order) < p` runs exactly `p` times from
an empty order; the model recurses on that count as fuel. -/
def fitLoop (s : SURDM) (stdX : List (List ℝ)) (n p : ℕ) :
    ℕ → GraphResult → List Bool → GraphResult
  | 0, result, _ => result
  | fuel+1, result, remaining =>
    if countActive remaining = 1 then
      let pr := processLastVariable stdX result remaining n
      fitLoop s stdX n p fuel pr.1 pr.2
    else
      let best := findBestVariable (processVariables s stdX remaining n p)
      let ur := updateResults s result best.1 best.2.1 best.2.2 remaining p
      fitLoop s stdX n p fuel ur.1 ur.2

/-- Row count of a column-list matrix (`mat.Dense` is rectangular, so the
first column's length; theorems about ragged inputs carry an explicit
rectangularity hypothesis). -/
def numRows (x : List (List ℝ)) : ℕ := (x.headD []).length

/-- The two error kinds of the spec's taxonomy: `InvalidInput` is the code's
"nil input matrix" and "empty input matrix" errors, `InsufficientSamples`
its "need at least 2 rows" error. -/
inductive SurdError where
  | InvalidInput
  | InsufficientSamples
deriving DecidableEq

/-- Method `SURD.Fit`: validation (nil, empty, fewer than two rows) happens before
standardization and before any iteration; afterwards the main loop runs to
completion and the result is returned without error. -/
def SURD.Fit (s : SURDM) (x? : Option (List (List ℝ))) :
    Except SurdError GraphResult :=
  match x? with
  | none => Except.error SurdError.InvalidInput
  | some x =>
    if numRows x = 0 ∨ x.length = 0 then Except.error SurdError.InvalidInput
    else if numRows x < 2 then Except.error SurdError.InsufficientSamples
    else Except.ok (fitLoop s (standardize x) (numRows x) x.length x.length
      (initResult x.length) (List.replicate x.length true))

/-! ### Standardizer properties (C5) -/

theorem sum_map_affine (col : List ℝ) (m sg : ℝ) :
    (col.map (fun v => (v - m) / sg)).sum = (col.sum - col.length * m) / sg := by
  induction col with
  | nil => simp
  | cons a t ih =>
    simp only [List.map_cons, List.sum_cons, ih, List.length_cons]
    rw [div_add_div_same]
    congr 1
    push_cast
    ring

theorem sum_map_div (col : List ℝ) (h : ℝ → ℝ) (c : ℝ) :
    (col.map (fun v => h v / c)).sum = (col.map h).sum / c := by
  induction col with
  | nil => simp
  | cons a t ih =>
    simp only [List.map_cons, List.sum_cons, ih]
    rw [div_add_div_same]

theorem colVariance_nonneg (col : List ℝ) : 0 ≤ colVariance col := by
  unfold colVariance
  apply div_nonneg _ (Nat.cast_nonneg _)
  apply List.sum_nonneg
  intro x hx
  obtain ⟨v, -, rfl⟩ := List.mem_map.mp hx
  exact mul_self_nonneg _

theorem length_standardizeCol (col : List ℝ) :
    (standardizeCol col).length = col.length := by
  unfold standardizeCol
  split <;> simp

/-- C5: `standardize` preserves the shape (and, being a pure function,
does not mutate its input); a column whose population standard deviation is
below `1e-12` is zeroed entirely; any other column is rescaled entrywise to
`(x - mean)/stddev`, and the result then has mean exactly `0` and population
standard deviation exactly `1` (in particular within the spec's `1e-6`). -/
theorem standardize_spec (X : List (List ℝ)) :
    standardize X = X.map standardizeCol ∧
    (standardize X).length = X.length ∧
    (∀ c ∈ X, (standardizeCol c).length = c.length) ∧
    (∀ c ∈ X, Real.sqrt (colVariance c) < 1e-12 →
      standardizeCol c = List.replicate c.length 0) ∧
    (∀ c ∈ X, ¬ Real.sqrt (colVariance c) < 1e-12 →
      standardizeCol c =
        c.map (fun v => (v - colMean c) / Real.sqrt (colVariance c)) ∧
      colMean (standardizeCol c) = 0 ∧
      Real.sqrt (colVariance (standardizeCol c)) = 1) := by
  refine ⟨rfl, by simp [standardize], fun c _ => length_standardizeCol c,
    fun c _ hdeg => by unfold standardizeCol; rw [if_pos hdeg],
    fun c _ hnd => ?_⟩
  have hform : standardizeCol c =
      c.map (fun v => (v - colMean c) / Real.sqrt (colVariance c)) := by
    unfold standardizeCol; rw [if_neg hnd]
  push_neg at hnd
  have hsg0 : (0:ℝ) < Real.sqrt (colVariance c) := by
    have : (0:ℝ) < 1e-12 := by norm_num
    linarith
  have hvar0 : 0 < colVariance c := Real.sqrt_pos.mp hsg0
  have hlen0 : c.length ≠ 0 := by
    intro h0
    rw [List.length_eq_zero] at h0
    subst h0
    rw [show colVariance [] = 0 by simp [colVariance], Real.sqrt_zero] at hsg0
    exact lt_irrefl 0 hsg0
  have hlenR : (0:ℝ) < (c.length:ℝ) := by
    have := Nat.pos_of_ne_zero hlen0
    exact_mod_cast this
  set m := colMean c with hm
  set sg := Real.sqrt (colVariance c) with hsg
  have hsgsq : sg * sg = colVariance c := by
    rw [hsg]
    exact Real.mul_self_sqrt (colVariance_nonneg c)
  -- mean of the standardized column is exactly 0
  have hmean : colMean (standardizeCol c) = 0 := by
    rw [hform]
    unfold colMean
    rw [sum_map_affine c m sg, List.length_map]
    have hsum : c.sum - c.length * m = 0 := by
      rw [hm]
      unfold colMean
      field_simp
    rw [hsum, zero_div, zero_div]
  refine ⟨hform, hmean, ?_⟩
  -- population variance of the standardized column is exactly 1
  have hSvar : (c.map (fun v => (v - m) * (v - m))).sum =
      c.length * colVariance c := by
    unfold colVariance
    rw [← hm]
    field_simp
  have hvc : colVariance (standardizeCol c) = 1 := by
    unfold colVariance
    rw [hmean, hform, List.length_map]
    have hmaps : ((c.map (fun v => (v - m) / sg)).map
          (fun u => (u - 0) * (u - 0))).sum =
        (c.map (fun v => ((v - m) * (v - m)) / (sg * sg))).sum := by
      rw [List.map_map]
      apply congrArg
      apply List.map_congr_left
      intro v _
      simp only [Function.comp]
      rw [sub_zero]
      rw [div_mul_div_comm]
    rw [hmaps, sum_map_div c (fun v => (v - m) * (v - m)) (sg * sg), hSvar,
      hsgsq]
    field_simp
  rw [hvc, Real.sqrt_one]

/-- Witness for C5: the constant column `[1,1]` standardizes to zeros, and
the non-degenerate column `[0,2]` standardizes to exact mean `0` and
population standard deviation `1`. -/
theorem standardize_spec_witness :
    standardizeCol [1, 1] = [0, 0] ∧
    colMean (standardizeCol [0, 2]) = 0 ∧
    Real.sqrt (colVariance (standardizeCol [0, 2])) = 1 := by
  have h := standardize_spec [[1, 1], [0, 2]]
  have hvar1 : colVariance [1, 1] = 0 := by
    norm_num [colVariance, colMean]
  have hvar2 : colVariance [0, 2] = 1 := by
    norm_num [colVariance, colMean]
  have hdeg : Real.sqrt (colVariance [1, 1]) < 1e-12 := by
    rw [hvar1, Real.sqrt_zero]; norm_num
  have hnd : ¬ Real.sqrt (colVariance [0, 2]) < 1e-12 := by
    rw [hvar2, Real.sqrt_one]; norm_num
  refine ⟨?_, (h.2.2.2.2 [0, 2] (by simp) hnd).2.1,
    (h.2.2.2.2 [0, 2] (by simp) hnd).2.2⟩
  rw [h.2.2.2.1 [1, 1] (by simp) hdeg]
  rfl

/-! ### Selection: findBestVariable (C1, C8) -/

/-- Default element for indexing into result lists. -/
def defaultVR : VarResult := ⟨0, 0, []⟩

theorem fbv_fold_char (l : List VarResult) :
    ∀ b : ℤ × ℝ × List ℝ,
      (l.foldl fbvStep b = b ∧ ∀ r ∈ l, b.2.1 ≤ r.mse) ∨
      (∃ i, i < l.length ∧
        l.foldl fbvStep b =
          (((l.getD i defaultVR).idx : ℤ), (l.getD i defaultVR).mse,
            (l.getD i defaultVR).weights) ∧
        (l.getD i defaultVR).mse < b.2.1 ∧
        (∀ r ∈ l, (l.getD i defaultVR).mse ≤ r.mse) ∧
        (∀ k, k < i → (l.getD i defaultVR).mse < (l.getD k defaultVR).mse)) := by
  induction l with
  | nil => intro b; left; exact ⟨rfl, by simp⟩
  | cons a t ih =>
    intro b
    rw [List.foldl_cons]
    by_cases ha : a.mse < b.2.1
    · have hstep : fbvStep b a = ((a.idx : ℤ), a.mse, a.weights) := by
        unfold fbvStep; rw [if_pos ha]
      rw [hstep]
      rcases ih ((a.idx : ℤ), a.mse, a.weights) with ⟨heq, hall⟩ |
        ⟨i, hi, heq, hlt, hmin, hfirst⟩
      · right
        refine ⟨0, by simp, ?_, ?_, ?_, ?_⟩
        · rw [List.getD_cons_zero]; exact heq
        · rw [List.getD_cons_zero]; exact ha
        · rw [List.getD_cons_zero]
          intro r hr
          rcases List.mem_cons.mp hr with rfl | hrt
          · exact le_refl _
          · exact hall r hrt
        · intro k hk; exact absurd hk (Nat.not_lt_zero k)
      · right
        refine ⟨i + 1, by simp only [List.length_cons]; omega, ?_, ?_, ?_, ?_⟩
        · rw [List.getD_cons_succ]; exact heq
        · rw [List.getD_cons_succ]; exact lt_trans hlt ha
        · rw [List.getD_cons_succ]
          intro r hr
          rcases List.mem_cons.mp hr with rfl | hrt
          · exact le_of_lt hlt
          · exact hmin r hrt
        · intro k hk
          cases k with
          | zero => rw [List.getD_cons_succ, List.getD_cons_zero]; exact hlt
          | succ m =>
            rw [List.getD_cons_succ, List.getD_cons_succ]
            exact hfirst m (by omega)
    · have hstep : fbvStep b a = b := by
        unfold fbvStep; rw [if_neg ha]
      rw [hstep]
      rcases ih b with ⟨heq, hall⟩ | ⟨i, hi, heq, hlt, hmin, hfirst⟩
      · left
        refine ⟨heq, ?_⟩
        intro r hr
        rcases List.mem_cons.mp hr with rfl | hrt
        · exact not_lt.mp ha
        · exact hall r hrt
      · right
        refine ⟨i + 1, by simp only [List.length_cons]; omega, ?_, ?_, ?_, ?_⟩
        · rw [List.getD_cons_succ]; exact heq
        · rw [List.getD_cons_succ]; exact hlt
        · rw [List.getD_cons_succ]
          intro r hr
          rcases List.mem_cons.mp hr with rfl | hrt
          · exact le_of_lt (lt_of_lt_of_le hlt (not_lt.mp ha))
          · exact hmin r hrt
        · intro k hk
          cases k with
          | zero =>
            rw [List.getD_cons_succ, List.getD_cons_zero]
            exact lt_of_lt_of_le hlt (not_lt.mp ha)
          | succ m =>
            rw [List.getD_cons_succ, List.getD_cons_succ]
            exact hfirst m (by omega)

/-- Helper corollary: whenever some collected result has an MSE strictly
below the `math.MaxFloat64` sentinel, `findBestVariable` returns one of the
collected results, one of minimal MSE (in particular a non-sentinel one). -/
theorem findBestVariable_mem (results : List VarResult)
    (h : ∃ r ∈ results, r.mse < maxFloat64) :
    ∃ r ∈ results,
      findBestVariable results = ((r.idx : ℤ), r.mse, r.weights) ∧
      r.mse < maxFloat64 ∧ ∀ q ∈ results, r.mse ≤ q.mse := by
  obtain ⟨rf, hrf, hrflt⟩ := h
  rcases fbv_fold_char results (-1, maxFloat64, []) with ⟨-, hall⟩ |
    ⟨i, hi, heq, hlt, hmin, -⟩
  · exact absurd (hall rf hrf) (not_le.mpr hrflt)
  · refine ⟨results.getD i defaultVR, ?_, heq, lt_of_le_of_lt (hmin rf hrf) hrflt, hmin⟩
    rw [List.getD_eq_getElem _ _ hi]
    exact List.getElem_mem hi

/-- C1 (amended): `findBestVariable` selects a minimal-MSE result, and among
exact ties it keeps the one that arrives FIRST in the drain order (strictly
smaller MSE than every earlier arrival).  When the results are sorted by
ascending variable index — the canonical single-worker arrival order — the
first tied arrival is exactly the lowest-index argmin.  Selection is not
invariant under permuting arrival order when the minimum is tied
(see the counterexample theorem). -/
theorem findBestVariable_first_min (results : List VarResult)
    (h : ∃ r ∈ results, r.mse < maxFloat64) :
    ∃ i, i < results.length ∧
      findBestVariable results =
        (((results.getD i defaultVR).idx : ℤ), (results.getD i defaultVR).mse,
          (results.getD i defaultVR).weights) ∧
      (∀ r ∈ results, (results.getD i defaultVR).mse ≤ r.mse) ∧
      (∀ k, k < i →
        (results.getD i defaultVR).mse < (results.getD k defaultVR).mse) ∧
      (results.Pairwise (fun r1 r2 => r1.idx < r2.idx) →
        ∀ r ∈ results, r.mse = (results.getD i defaultVR).mse →
          (results.getD i defaultVR).idx ≤ r.idx) := by
  obtain ⟨rf, hrf, hrflt⟩ := h
  rcases fbv_fold_char results (-1, maxFloat64, []) with ⟨-, hall⟩ |
    ⟨i, hi, heq, hlt, hmin, hfirst⟩
  · exact absurd (hall rf hrf) (not_le.mpr hrflt)
  · refine ⟨i, hi, heq, hmin, hfirst, ?_⟩
    intro hsorted r hr hrmse
    obtain ⟨j, hj, rfl⟩ := List.getElem_of_mem hr
    have hgj : results.getD j defaultVR = results[j] :=
      List.getD_eq_getElem _ _ hj
    rcases lt_trichotomy j i with hji | hji | hji
    · exfalso
      have := hfirst j hji
      rw [hgj] at this
      rw [hrmse] at this
      exact lt_irrefl _ this
    · subst hji
      rw [List.getD_eq_getElem _ _ hj]
    · have := (List.pairwise_iff_getElem.mp hsorted) i j hi hj hji
      rw [← List.getD_eq_getElem results defaultVR hi] at this
      exact le_of_lt this

/-- Witness for C1's amended theorem at the one-element collection
`[⟨0, 0, []⟩]`. -/
theorem findBestVariable_first_min_witness :
    (∃ r ∈ ([⟨0, 0, []⟩] : List VarResult), r.mse < maxFloat64) ∧
    (∃ i, i < ([⟨0, 0, []⟩] : List VarResult).length ∧
      findBestVariable [⟨0, 0, []⟩] =
        ((((([⟨0, 0, []⟩] : List VarResult).getD i defaultVR).idx : ℤ)),
          (([⟨0, 0, []⟩] : List VarResult).getD i defaultVR).mse,
          (([⟨0, 0, []⟩] : List VarResult).getD i defaultVR).weights) ∧
      (∀ r ∈ ([⟨0, 0, []⟩] : List VarResult),
        (([⟨0, 0, []⟩] : List VarResult).getD i defaultVR).mse ≤ r.mse) ∧
      (∀ k, k < i →
        (([⟨0, 0, []⟩] : List VarResult).getD i defaultVR).mse <
          (([⟨0, 0, []⟩] : List VarResult).getD k defaultVR).mse) ∧
      (([⟨0, 0, []⟩] : List VarResult).Pairwise (fun r1 r2 => r1.idx < r2.idx) →
        ∀ r ∈ ([⟨0, 0, []⟩] : List VarResult),
          r.mse = (([⟨0, 0, []⟩] : List VarResult).getD i defaultVR).mse →
            (([⟨0, 0, []⟩] : List VarResult).getD i defaultVR).idx ≤ r.idx)) := by
  have hex : ∃ r ∈ ([⟨0, 0, []⟩] : List VarResult), r.mse < maxFloat64 := by
    refine ⟨⟨0, 0, []⟩, by simp, ?_⟩
    show (0:ℝ) < maxFloat64
    unfold maxFloat64
    norm_num
  exact ⟨hex, findBestVariable_first_min [⟨0, 0, []⟩] hex⟩

/-- C1 (counterexample): two collections holding the same results in
different arrival orders — a genuine tie at the minimal MSE — make
`findBestVariable` pick different variables, and the order that presents
index `1` first does NOT return the lowest-index argmin `0`.  Hence the
claimed permutation invariance and lowest-index tie-break fail. -/
theorem findBestVariable_tie_not_invariant :
    ([⟨1, 1, []⟩, ⟨0, 1, []⟩] : List VarResult).Perm [⟨0, 1, []⟩, ⟨1, 1, []⟩] ∧
    findBestVariable [⟨0, 1, []⟩, ⟨1, 1, []⟩] = (0, 1, []) ∧
    findBestVariable [⟨1, 1, []⟩, ⟨0, 1, []⟩] = (1, 1, []) ∧
    findBestVariable [⟨1, 1, []⟩, ⟨0, 1, []⟩] ≠
      findBestVariable [⟨0, 1, []⟩, ⟨1, 1, []⟩] := by
  have hm : (1:ℝ) < maxFloat64 := by unfold maxFloat64; norm_num
  have h1 : findBestVariable [⟨0, 1, []⟩, ⟨1, 1, []⟩] = (0, 1, []) := by
    unfold findBestVariable
    rw [List.foldl_cons, List.foldl_cons, List.foldl_nil]
    rw [show fbvStep (-1, maxFloat64, []) ⟨0, 1, []⟩ = ((0:ℤ), 1, []) by
      unfold fbvStep; rw [if_pos hm]; rfl]
    unfold fbvStep
    rw [if_neg (lt_irrefl (1:ℝ))]
  have h2 : findBestVariable [⟨1, 1, []⟩, ⟨0, 1, []⟩] = (1, 1, []) := by
    unfold findBestVariable
    rw [List.foldl_cons, List.foldl_cons, List.foldl_nil]
    rw [show fbvStep (-1, maxFloat64, []) ⟨1, 1, []⟩ = ((1:ℤ), 1, []) by
      unfold fbvStep; rw [if_pos hm]; rfl]
    unfold fbvStep
    rw [if_neg (lt_irrefl (1:ℝ))]
  refine ⟨List.Perm.swap (⟨0, 1, []⟩ : VarResult) (⟨1, 1, []⟩ : VarResult) [],
    h1, h2, ?_⟩
  rw [h1, h2]
  intro hcontra
  have : (1:ℤ) = 0 := congrArg Prod.fst hcontra
  exact absurd this (by norm_num)

/-- C8: a candidate whose subproblem has no predictors (active count at most
one) gets `none` from `prepareData`; its task reports the sentinel
`math.MaxFloat64` MSE with an empty weight vector; and whenever any
collected result has a real (below-sentinel) MSE, the selected result is
itself a real one — a sentinel candidate is never chosen. -/
theorem sentinel_spec :
    (∀ (x : List (List ℝ)) (target : ℕ) (remaining : List Bool),
      countActive remaining ≤ 1 → (prepareData x target remaining).1 = none) ∧
    (∀ (s : SURDM) (stdX : List (List ℝ)) (remaining : List Bool) (n p j : ℕ),
      j < p → remaining.getD j false = true → countActive remaining ≤ 1 →
      (⟨j, maxFloat64, []⟩ : VarResult) ∈ processVariables s stdX remaining n p) ∧
    (∀ results : List VarResult, ∀ rf ∈ results, rf.mse < maxFloat64 →
      ∃ r ∈ results,
        findBestVariable results = ((r.idx : ℤ), r.mse, r.weights) ∧
        r.mse < maxFloat64) := by
  refine ⟨?_, ?_, ?_⟩
  · intro x target remaining h
    unfold prepareData
    rw [if_pos h]
  · intro s stdX remaining n p j hj hrem hact
    have hprep : prepareData stdX j remaining = (none, stdX.getD j []) := by
      unfold prepareData
      rw [if_pos hact]
    unfold processVariables
    apply List.mem_map.mpr
    refine ⟨j, ?_, ?_⟩
    · apply List.mem_filter.mpr
      exact ⟨List.mem_range.mpr hj, by rw [hrem]⟩
    · rw [hprep]
  · intro results rf hrf hlt
    obtain ⟨r, hr, heq, hrlt, -⟩ := findBestVariable_mem results ⟨rf, hrf, hlt⟩
    exact ⟨r, hr, heq, hrlt⟩

/-- Witness for C8 at concrete inputs: a single active variable with itself
as target, and a one-element result collection. -/
theorem sentinel_spec_witness :
    (prepareData [[1]] 0 [true]).1 = none ∧
    (⟨0, maxFloat64, []⟩ : VarResult) ∈
      processVariables (New ⟨0, 0, 0, 0, false⟩) [[1]] [true] 1 1 ∧
    (∃ r ∈ ([⟨5, 0, []⟩] : List VarResult),
      findBestVariable [⟨5, 0, []⟩] = ((r.idx : ℤ), r.mse, r.weights) ∧
      r.mse < maxFloat64) := by
  refine ⟨sentinel_spec.1 [[1]] 0 [true] (by simp [countActive]),
    sentinel_spec.2.1 (New ⟨0, 0, 0, 0, false⟩) [[1]] [true] 1 1 0
      (by norm_num) (by simp) (by simp [countActive]), ?_⟩
  apply sentinel_spec.2.2 [⟨5, 0, []⟩] ⟨5, 0, []⟩ (by simp)
  show (0:ℝ) < maxFloat64
  unfold maxFloat64
  norm_num

/-! ### Input validation (C3) -/

/-- C3: `Fit` fails with `InvalidInput` exactly on a nil matrix or a matrix
with zero rows or zero columns, and with `InsufficientSamples` exactly on a
matrix that passes those checks but has fewer than 2 rows (the checks run in
this order, before standardization, before any iteration and before any
parallel work); and an error is never accompanied by a result — the
`Except` value is either an error or a graph, never both. -/
theorem fit_validation (s : SURDM) :
    (∀ x? : Option (List (List ℝ)),
      SURD.Fit s x? = Except.error SurdError.InvalidInput ↔
        (x? = none ∨ ∃ x, x? = some x ∧ (numRows x = 0 ∨ x.length = 0))) ∧
    (∀ x? : Option (List (List ℝ)),
      SURD.Fit s x? = Except.error SurdError.InsufficientSamples ↔
        (∃ x, x? = some x ∧ numRows x ≠ 0 ∧ x.length ≠ 0 ∧ numRows x < 2)) ∧
    (∀ (x? : Option (List (List ℝ))) (e : SurdError) (res : GraphResult),
      SURD.Fit s x? = Except.error e → SURD.Fit s x? ≠ Except.ok res) := by
  have hfit : ∀ x : List (List ℝ), SURD.Fit s (some x) =
      (if numRows x = 0 ∨ x.length = 0 then Except.error SurdError.InvalidInput
       else if numRows x < 2 then Except.error SurdError.InsufficientSamples
       else Except.ok (fitLoop s (standardize x) (numRows x) x.length x.length
         (initResult x.length) (List.replicate x.length true))) := fun x => rfl
  refine ⟨?_, ?_, ?_⟩
  · intro x?
    cases x? with
    | none =>
      constructor
      · intro _; exact Or.inl rfl
      · intro _; rfl
    | some x =>
      rw [hfit x]
      by_cases h1 : numRows x = 0 ∨ x.length = 0
      · rw [if_pos h1]
        constructor
        · intro _; exact Or.inr ⟨x, rfl, h1⟩
        · intro _; rfl
      · rw [if_neg h1]
        by_cases h2 : numRows x < 2
        · rw [if_pos h2]
          constructor
          · intro hcontra; exact absurd hcontra (by simp)
          · rintro (hnone | ⟨x', hx', hcond⟩)
            · exact absurd hnone (by simp)
            · have hx : x = x' := by injection hx'
              subst hx
              exact absurd hcond h1
        · rw [if_neg h2]
          constructor
          · intro hcontra; exact absurd hcontra (by simp)
          · rintro (hnone | ⟨x', hx', hcond⟩)
            · exact absurd hnone (by simp)
            · have hx : x = x' := by injection hx'
              subst hx
              exact absurd hcond h1
  · intro x?
    cases x? with
    | none =>
      constructor
      · intro hcontra; exact absurd hcontra (by simp [SURD.Fit])
      · rintro ⟨x, hx, -⟩; exact absurd hx (by simp)
    | some x =>
      rw [hfit x]
      by_cases h1 : numRows x = 0 ∨ x.length = 0
      · rw [if_pos h1]
        constructor
        · intro hcontra; exact absurd hcontra (by simp)
        · rintro ⟨x', hx', hr, hc, -⟩
          have hx : x = x' := by injection hx'
          subst hx
          rcases h1 with h1 | h1
          · exact absurd h1 hr
          · exact absurd h1 hc
      · rw [if_neg h1]
        push_neg at h1
        by_cases h2 : numRows x < 2
        · rw [if_pos h2]
          constructor
          · intro _; exact ⟨x, rfl, h1.1, h1.2, h2⟩
          · intro _; rfl
        · rw [if_neg h2]
          constructor
          · intro hcontra; exact absurd hcontra (by simp)
          · rintro ⟨x', hx', -, -, hlt⟩
            have hx : x = x' := by injection hx'
            subst hx
            exact absurd hlt h2
  · intro x? e res herr
    rw [herr]
    simp

/-- Witness for C3: on a nil matrix `Fit` errs, hence returns no graph. -/
theorem fit_validation_witness :
    SURD.Fit (New ⟨0, 0, 0, 0, false⟩) none ≠ Except.ok (initResult 0) :=
  (fit_validation (New ⟨0, 0, 0, 0, false⟩)).2.2 none SurdError.InvalidInput
    (initResult 0) rfl

/-! ### Counting and ordering helpers for the orchestrator invariant -/

theorem countActive_replicate_true (p : ℕ) :
    countActive (List.replicate p true) = p := by
  unfold countActive
  rw [List.count_replicate]
  simp

theorem countActive_set_false (rem : List Bool) :
    ∀ j : ℕ, j < rem.length → rem.getD j false = true →
      countActive (rem.set j false) + 1 = countActive rem := by
  induction rem with
  | nil => intro j hj; simp at hj
  | cons b t ih =>
    intro j hj ha
    cases j with
    | zero =>
      rw [List.getD_cons_zero] at ha
      subst ha
      rw [List.set_cons_zero]
      unfold countActive
      simp [List.count_cons]
    | succ m =>
      have hm : m < t.length := by simpa using hj
      rw [List.getD_cons_succ] at ha
      rw [List.set_cons_succ]
      have hih := ih m hm ha
      unfold countActive at hih ⊢
      simp only [List.count_cons]
      omega

theorem countActive_exists (rem : List Bool) (h : countActive rem ≠ 0) :
    ∃ j, j < rem.length ∧ rem.getD j false = true := by
  unfold countActive at h
  have hmem : true ∈ rem := by
    by_contra hc
    exact h (List.count_eq_zero.mpr hc)
  obtain ⟨j, hj, he⟩ := List.getElem_of_mem hmem
  exact ⟨j, hj, by rw [List.getD_eq_getElem _ _ hj, he]⟩

theorem indexOf_append_left {α : Type} [DecidableEq α] (l₁ l₂ : List α) (a : α)
    (h : a ∈ l₁) : (l₁ ++ l₂).indexOf a = l₁.indexOf a := by
  induction l₁ with
  | nil => simp at h
  | cons x t ih =>
    rw [List.cons_append]
    by_cases hx : x = a
    · subst hx
      rw [List.indexOf_cons_self, List.indexOf_cons_self]
    · have hmem : a ∈ t := by
        rcases List.mem_cons.mp h with h' | h'
        · exact absurd h'.symm hx
        · exact h'
      rw [List.indexOf_cons_ne _ hx, List.indexOf_cons_ne _ hx, ih hmem]

theorem indexOf_append_right {α : Type} [DecidableEq α] (l₁ l₂ : List α) (a : α)
    (h : a ∉ l₁) : (l₁ ++ l₂).indexOf a = l₁.length + l₂.indexOf a := by
  induction l₁ with
  | nil => simp
  | cons x t ih =>
    rw [List.cons_append]
    have hx : x ≠ a := fun hc => h (hc ▸ List.mem_cons_self x t)
    have hmem : a ∉ t := fun hc => h (List.mem_cons_of_mem x hc)
    rw [List.indexOf_cons_ne _ hx, ih hmem, List.length_cons]
    omega

/-- Appending a fresh element to the order preserves the edge invariant. -/
theorem order_extend (ord : List ℤ) (k : ℤ) (hk : k ∉ ord)
    (i j : ℤ) (hi : i ∈ ord) (hij : j ∈ ord → ord.indexOf i < ord.indexOf j) :
    i ∈ ord ++ [k] ∧
    (j ∈ ord ++ [k] → (ord ++ [k]).indexOf i < (ord ++ [k]).indexOf j) := by
  refine ⟨List.mem_append_left _ hi, ?_⟩
  intro hjmem
  rcases List.mem_append.mp hjmem with hj | hj
  · rw [indexOf_append_left _ _ _ hi, indexOf_append_left _ _ _ hj]
    exact hij hj
  · have hjk : j = k := by simpa using hj
    subst hjk
    rw [indexOf_append_left _ _ _ hi, indexOf_append_right _ _ _ hk]
    have h1 : ord.indexOf i < ord.length := List.indexOf_lt_length.mpr hi
    omega

/-! ### Squared norms of standardized columns -/

theorem dotp_replicate_zero (m : ℕ) :
    dotp (List.replicate m (0:ℝ)) (List.replicate m 0) = 0 := by
  induction m with
  | zero => rfl
  | succ k ih => rw [List.replicate_succ, dotp_cons, ih]; ring

theorem dotp_map_self (f : ℝ → ℝ) (l : List ℝ) :
    dotp (l.map f) (l.map f) = (l.map (fun v => f v * f v)).sum := by
  induction l with
  | nil => rfl
  | cons a t ih => rw [List.map_cons, dotp_cons, List.map_cons, List.sum_cons, ih]

/-- The squared norm of a standardized column is exactly `0` (degenerate
case) or exactly the row count (non-degenerate case, since the population
variance becomes exactly 1). -/
theorem standardizeCol_dotp (c : List ℝ) :
    dotp (standardizeCol c) (standardizeCol c) = 0 ∨
    dotp (standardizeCol c) (standardizeCol c) = (c.length : ℝ) := by
  unfold standardizeCol
  by_cases hdeg : Real.sqrt (colVariance c) < 1e-12
  · rw [if_pos hdeg]
    exact Or.inl (dotp_replicate_zero _)
  · rw [if_neg hdeg]
    right
    push_neg at hdeg
    have hsg0 : (0:ℝ) < Real.sqrt (colVariance c) := by
      have : (0:ℝ) < 1e-12 := by norm_num
      linarith
    have hvar0 : 0 < colVariance c := Real.sqrt_pos.mp hsg0
    have hlen0 : c.length ≠ 0 := by
      intro h0
      rw [List.length_eq_zero] at h0
      subst h0
      rw [show colVariance [] = 0 by simp [colVariance], Real.sqrt_zero] at hsg0
      exact lt_irrefl 0 hsg0
    have hlenR : (0:ℝ) < (c.length:ℝ) := by
      exact_mod_cast Nat.pos_of_ne_zero hlen0
    set m := colMean c with hm
    set sg := Real.sqrt (colVariance c) with hsg
    have hsgsq : sg * sg = colVariance c := by
      rw [hsg]
      exact Real.mul_self_sqrt (colVariance_nonneg c)
    have hSvar : (c.map (fun v => (v - m) * (v - m))).sum =
        c.length * colVariance c := by
      unfold colVariance
      rw [← hm]
      field_simp
    rw [dotp_map_self]
    have hmaps : (c.map (fun v => (v - m) / sg * ((v - m) / sg))).sum =
        (c.map (fun v => ((v - m) * (v - m)) / (sg * sg))).sum := by
      apply congrArg
      apply List.map_congr_left
      intro v _
      rw [div_mul_div_comm]
    rw [hmaps, sum_map_div c (fun v => (v - m) * (v - m)) (sg * sg), hSvar,
      hsgsq]
    field_simp

/-- Shape and norm facts about the standardized matrix used throughout the
orchestrator proof. -/
theorem standardize_props (x : List (List ℝ)) (n : ℕ)
    (hrect : ∀ c ∈ x, c.length = n) :
    (standardize x).length = x.length ∧
    ∀ c ∈ standardize x, c.length = n ∧
      (dotp c c = 0 ∨ dotp c c = (n:ℝ)) := by
  refine ⟨by simp [standardize], ?_⟩
  intro c hc
  obtain ⟨c0, hc0, rfl⟩ := List.mem_map.mp hc
  have hlen : c0.length = n := hrect c0 hc0
  refine ⟨by rw [length_standardizeCol, hlen], ?_⟩
  rcases standardizeCol_dotp c0 with h | h
  · exact Or.inl h
  · exact Or.inr (by rw [h, hlen])

/-! ### MSE bound for the dispatched tasks -/

theorem sum_map_mul_self_eq_dotp (l : List ℝ) :
    (l.map (fun r => r * r)).sum = dotp l l := by
  induction l with
  | nil => rfl
  | cons a t ih => rw [List.map_cons, List.sum_cons, dotp_cons, ih]

theorem computeMSE_eq_dotp (l : List ℝ) :
    computeMSE l = if l.length = 0 then 0 else dotp l l / l.length := by
  unfold computeMSE
  rw [sum_map_mul_self_eq_dotp]

/-- Every result produced by `processVariables` carries the index of an
active variable below `p`. -/
theorem processVariables_idx (s : SURDM) (stdX : List (List ℝ))
    (remaining : List Bool) (n p : ℕ) :
    ∀ r ∈ processVariables s stdX remaining n p,
      r.idx < p ∧ remaining.getD r.idx false = true := by
  intro r hr
  obtain ⟨j, hj, rfl⟩ := List.mem_map.mp hr
  obtain ⟨hjr, hjf⟩ := List.mem_filter.mp hj
  have hjp : j < p := List.mem_range.mp hjr
  rcases hprep : prepareData stdX j remaining with ⟨o, y⟩
  cases o with
  | none => exact ⟨hjp, by simpa using hjf⟩
  | some xSub => exact ⟨hjp, by simpa using hjf⟩

/-- Every result produced by `processVariables` on a standardized matrix
with at least two rows and at least two active candidates has MSE at most
`1`: the coordinate-descent objective never rises above the target's
variance. -/
theorem processVariables_mse (s : SURDM) (stdX : List (List ℝ))
    (remaining : List Bool) (n p : ℕ)
    (hlam : 0 ≤ s.regressor.config.lambda)
    (hp : stdX.length = p)
    (hstd : ∀ c ∈ stdX, c.length = n ∧ (dotp c c = 0 ∨ dotp c c = (n:ℝ)))
    (hn : 2 ≤ n) (hact : 2 ≤ countActive remaining) :
    ∀ r ∈ processVariables s stdX remaining n p, r.mse ≤ 1 := by
  intro r hr
  obtain ⟨j, hj, rfl⟩ := List.mem_map.mp hr
  obtain ⟨hjr, hjf⟩ := List.mem_filter.mp hj
  have hjp : j < p := List.mem_range.mp hjr
  have hnotle : ¬ countActive remaining ≤ 1 := by omega
  have hprep : prepareData stdX j remaining =
      (some (((List.range stdX.length).filter
          (fun k => remaining.getD k false && k != j)).map
        (fun k => stdX.getD k [])), stdX.getD j []) := by
    unfold prepareData
    rw [if_neg hnotle]
  rw [hprep]
  set xSub := ((List.range stdX.length).filter
      (fun k => remaining.getD k false && k != j)).map
    (fun k => stdX.getD k []) with hxSub
  set y := stdX.getD j [] with hy
  have hymem : y ∈ stdX := by
    rw [hy, List.getD_eq_getElem _ _ (by omega)]
    exact List.getElem_mem _
  obtain ⟨hylen, hydotp⟩ := hstd y hymem
  have hsubmem : ∀ c ∈ xSub, c ∈ stdX := by
    intro c hc
    obtain ⟨k, hk, rfl⟩ := List.mem_map.mp hc
    obtain ⟨hkr, -⟩ := List.mem_filter.mp hk
    have hkp : k < stdX.length := List.mem_range.mp hkr
    rw [List.getD_eq_getElem _ _ hkp]
    exact List.getElem_mem _
  have hcl : ∀ c ∈ xSub, c.length = y.length := by
    intro c hc
    rw [(hstd c (hsubmem c hc)).1, hylen]
  have hdich : ∀ c ∈ xSub, dotp c c = 0 ∨ (1e-12:ℝ) ≤ dotp c c := by
    intro c hc
    rcases (hstd c (hsubmem c hc)).2 with h | h
    · exact Or.inl h
    · right
      rw [h]
      have : (2:ℝ) ≤ (n:ℝ) := by exact_mod_cast hn
      linarith [show (1e-12:ℝ) ≤ 2 by norm_num]
  obtain ⟨-, hbound⟩ := lasso_FitCols_bound s.regressor xSub y hlam hcl hdich
  show computeMSE (calculateResiduals xSub y (s.regressor.FitCols xSub y)) ≤ 1
  rw [computeMSE_eq_dotp, length_calculateResiduals]
  have hylen' : y.length ≠ 0 := by omega
  rw [if_neg hylen']
  have hyy : dotp y y ≤ (y.length : ℝ) := by
    rcases hydotp with h | h
    · rw [h, hylen]; positivity
    · rw [h, hylen]
  have hylenR : (0:ℝ) < (y.length : ℝ) := by
    have : 0 < y.length := by omega
    exact_mod_cast this
  calc dotp (calculateResiduals xSub y (s.regressor.FitCols xSub y))
        (calculateResiduals xSub y (s.regressor.FitCols xSub y)) / y.length
      ≤ dotp y y / y.length := (div_le_div_iff_of_pos_right hylenR).mpr hbound
    _ ≤ 1 := by
        rw [div_le_one hylenR]
        exact hyy

/-! ### Two-dimensional update lemmas -/

theorem getAt2_set2 {α : Type} (m : List (List α)) (i j i' j' : ℕ) (v d : α) :
    getAt2 (set2 m i j v) i' j' d =
      if i = i' ∧ j = j' ∧ i < m.length ∧ j < (m.getD i []).length then v
      else getAt2 m i' j' d := by
  unfold getAt2 set2
  rw [getD_set]
  by_cases h1 : i = i' ∧ i < m.length
  · rw [if_pos h1, getD_set]
    by_cases h2 : j = j' ∧ j < (m.getD i []).length
    · rw [if_pos h2, if_pos ⟨h1.1, h2.1, h1.2, h2.2⟩]
    · rw [if_neg h2, if_neg (by tauto), h1.1]
  · rw [if_neg h1, if_neg (by tauto)]

theorem set2_length {α : Type} (m : List (List α)) (i j : ℕ) (v : α) :
    (set2 m i j v).length = m.length := by
  unfold set2
  simp

theorem set2_rows {α : Type} (m : List (List α)) (i j : ℕ) (v : α) (q : ℕ)
    (hi : i < m.length) (hrows : ∀ row ∈ m, row.length = q) :
    ∀ row ∈ set2 m i j v, row.length = q := by
  intro row hrow
  rcases List.mem_or_eq_of_mem_set hrow with h | h
  · exact hrows row h
  · subst h
    rw [List.length_set]
    apply hrows
    rw [List.getD_eq_getElem _ _ hi]
    exact List.getElem_mem _

theorem getAt2_replicate {α : Type} (p : ℕ) (d : α) (i j : ℕ) :
    getAt2 (List.replicate p (List.replicate p d)) i j d = d := by
  unfold getAt2
  by_cases hi : i < p
  · have houter : (List.replicate p (List.replicate p d)).getD i [] =
        List.replicate p d := by
      rw [List.getD_eq_getElem _ _ (by simpa using hi), List.getElem_replicate]
    rw [houter]
    by_cases hj : j < p
    · rw [List.getD_eq_getElem _ _ (by simpa using hj), List.getElem_replicate]
    · exact List.getD_eq_default _ _ (by simpa using hj)
  · have houter : (List.replicate p (List.replicate p d)).getD i [] = [] :=
      List.getD_eq_default _ _ (by simpa using hi)
    rw [houter]
    exact List.getD_eq_default _ _ (by simp)

/-! ### The orchestrator invariant -/

/-- Invariant of the main `Fit` loop: the remaining mask has length `p`;
selected and still-active variables partition `0..p-1` (counted by `Order`
length plus active count); the order is duplicate-free, its entries lie in
`[0, p)`, and no active variable is already ordered; the adjacency and
weight matrices stay `p×p`; every recorded edge `(i,j)` has `i` already
ordered and placed before `j` whenever `j` is ordered; and absent edges
carry zero weight. -/
def GInv (p : ℕ) (res : GraphResult) (rem : List Bool) : Prop :=
  rem.length = p ∧
  res.Order.length + countActive rem = p ∧
  res.Order.Nodup ∧
  (∀ v ∈ res.Order, 0 ≤ v ∧ v < (p:ℤ)) ∧
  (∀ j : ℕ, j < p → rem.getD j false = true → (j:ℤ) ∉ res.Order) ∧
  res.Adjacency.length = p ∧ (∀ row ∈ res.Adjacency, row.length = p) ∧
  res.Weights.length = p ∧ (∀ row ∈ res.Weights, row.length = p) ∧
  (∀ i j : ℕ, getAt2 res.Adjacency i j false = true →
    (i:ℤ) ∈ res.Order ∧
    ((j:ℤ) ∈ res.Order →
      res.Order.indexOf (i:ℤ) < res.Order.indexOf (j:ℤ))) ∧
  (∀ i j : ℕ, getAt2 res.Adjacency i j false = false →
    getAt2 res.Weights i j 0 = 0)

/-- Invariant of the edge-update fold, relative to the already-extended
order. -/
def EdgeInv (p : ℕ) (ord : List ℤ) (adj : List (List Bool))
    (wts : List (List ℝ)) : Prop :=
  adj.length = p ∧ (∀ row ∈ adj, row.length = p) ∧
  wts.length = p ∧ (∀ row ∈ wts, row.length = p) ∧
  (∀ i j : ℕ, getAt2 adj i j false = true →
    (i:ℤ) ∈ ord ∧ ((j:ℤ) ∈ ord → ord.indexOf (i:ℤ) < ord.indexOf (j:ℤ))) ∧
  (∀ i j : ℕ, getAt2 adj i j false = false → getAt2 wts i j 0 = 0)

theorem updateEdgesStep_inv (tol : ℝ) (p : ℕ) (rem : List Bool) (ord : List ℤ)
    (b : ℕ) (bw : List ℝ) (hb : b < p) (hrem : rem.length = p)
    (hbord : (b:ℤ) ∈ ord)
    (hnotin : ∀ k : ℕ, k < p → rem.getD k false = true → k ≠ b → (k:ℤ) ∉ ord)
    (st : List (List Bool) × List (List ℝ) × ℕ) (j : ℕ)
    (h : EdgeInv p ord st.1 st.2.1) :
    EdgeInv p ord (updateEdgesStep tol (b:ℤ) bw rem st j).1
      (updateEdgesStep tol (b:ℤ) bw rem st j).2.1 := by
  obtain ⟨ha1, ha2, hw1, hw2, hedge, hzero⟩ := h
  unfold updateEdgesStep
  by_cases hskip : (!(rem.getD j false) || ((j:ℤ) == (b:ℤ))) = true
  · rw [if_pos hskip]
    exact ⟨ha1, ha2, hw1, hw2, hedge, hzero⟩
  · rw [if_neg hskip]
    simp only [Bool.or_eq_true, Bool.not_eq_eq_eq_not, Bool.not_true,
      beq_iff_eq, not_or] at hskip
    obtain ⟨hact, hne⟩ := hskip
    have hact' : rem.getD j false = true := by
      cases hrj : rem.getD j false
      · exact absurd hrj hact
      · rfl
    have hjb : j ≠ b := fun hc => hne (by exact_mod_cast hc)
    have hjp : j < p := by
      by_contra hc
      rw [List.getD_eq_default _ _ (by omega)] at hact'
      exact absurd hact' (by simp)
    have hjord : (j:ℤ) ∉ ord := hnotin j hjp hact' hjb
    have hbadjrow : (st.1.getD b []).length = p := by
      apply ha2
      rw [List.getD_eq_getElem _ _ (by omega)]
      exact List.getElem_mem _
    have hbwtsrow : (st.2.1.getD b []).length = p := by
      apply hw2
      rw [List.getD_eq_getElem _ _ (by omega)]
      exact List.getElem_mem _
    have htn : ((b:ℤ)).toNat = b := Int.toNat_natCast b
    by_cases hwv : tol < |bw.getD st.2.2 0|
    · rw [if_pos hwv]
      show EdgeInv p ord (set2 st.1 ((b:ℤ)).toNat j true)
        (set2 st.2.1 ((b:ℤ)).toNat j (bw.getD st.2.2 0))
      rw [htn]
      refine ⟨by rw [set2_length, ha1], set2_rows _ _ _ _ _ (by omega) ha2,
        by rw [set2_length, hw1], set2_rows _ _ _ _ _ (by omega) hw2, ?_, ?_⟩
      · intro i' j' hT
        rw [getAt2_set2] at hT
        by_cases hc : b = i' ∧ j = j' ∧ b < st.1.length ∧ j < (st.1.getD b []).length
        · obtain ⟨rfl, rfl, -, -⟩ := hc
          exact ⟨hbord, fun hc2 => absurd hc2 hjord⟩
        · rw [if_neg hc] at hT
          exact hedge i' j' hT
      · intro i' j' hF
        rw [getAt2_set2] at hF
        rw [getAt2_set2]
        by_cases hc : b = i' ∧ j = j'
        · obtain ⟨rfl, rfl⟩ := hc
          rw [if_pos ⟨rfl, rfl, by omega, by omega⟩] at hF
          exact absurd hF (by simp)
        · have hcadj : ¬ (b = i' ∧ j = j' ∧ b < st.1.length ∧
              j < (st.1.getD b []).length) := by tauto
          have hcwts : ¬ (b = i' ∧ j = j' ∧ b < st.2.1.length ∧
              j < (st.2.1.getD b []).length) := by tauto
          rw [if_neg hcadj] at hF
          rw [if_neg hcwts]
          exact hzero i' j' hF
    · rw [if_neg hwv]
      exact ⟨ha1, ha2, hw1, hw2, hedge, hzero⟩

theorem updateEdges_foldl_inv (tol : ℝ) (p : ℕ) (rem : List Bool)
    (ord : List ℤ) (b : ℕ) (bw : List ℝ) (hb : b < p) (hrem : rem.length = p)
    (hbord : (b:ℤ) ∈ ord)
    (hnotin : ∀ k : ℕ, k < p → rem.getD k false = true → k ≠ b → (k:ℤ) ∉ ord)
    (js : List ℕ) :
    ∀ st : List (List Bool) × List (List ℝ) × ℕ, EdgeInv p ord st.1 st.2.1 →
      EdgeInv p ord
        ((js.foldl (updateEdgesStep tol (b:ℤ) bw rem) st)).1
        ((js.foldl (updateEdgesStep tol (b:ℤ) bw rem) st)).2.1 := by
  induction js with
  | nil => intro st h; exact h
  | cons j t ih =>
    intro st h
    rw [List.foldl_cons]
    exact ih _ (updateEdgesStep_inv tol p rem ord b bw hb hrem hbord hnotin st j h)

theorem updateResults_inv (s : SURDM) (p : ℕ) (res : GraphResult)
    (rem : List Bool) (b : ℕ) (bMSE : ℝ) (bw : List ℝ)
    (hg : GInv p res rem) (hb : b < p) (hbact : rem.getD b false = true) :
    GInv p (updateResults s res (b:ℤ) bMSE bw rem p).1
      (updateResults s res (b:ℤ) bMSE bw rem p).2 ∧
    countActive (updateResults s res (b:ℤ) bMSE bw rem p).2 + 1 =
      countActive rem := by
  obtain ⟨g1, g2, g3, g4, g5, g6a, g6b, g6c, g6d, g7, g8⟩ := hg
  have hbnotord : (b:ℤ) ∉ res.Order := g5 b hb hbact
  have hbord' : (b:ℤ) ∈ res.Order ++ [(b:ℤ)] :=
    List.mem_append_right _ (List.mem_singleton.mpr rfl)
  have hnotin' : ∀ k : ℕ, k < p → rem.getD k false = true → k ≠ b →
      (k:ℤ) ∉ res.Order ++ [(b:ℤ)] := by
    intro k hk hka hkb hmem
    rcases List.mem_append.mp hmem with hm | hm
    · exact g5 k hk hka hm
    · exact hkb (by exact_mod_cast List.mem_singleton.mp hm)
  have hinit : EdgeInv p (res.Order ++ [(b:ℤ)]) res.Adjacency res.Weights := by
    refine ⟨g6a, g6b, g6c, g6d, ?_, g8⟩
    intro i j hT
    obtain ⟨hiord, himp⟩ := g7 i j hT
    exact order_extend res.Order (b:ℤ) hbnotord (i:ℤ) (j:ℤ) hiord himp
  have hfold := updateEdges_foldl_inv s.config.tolerance p rem
    (res.Order ++ [(b:ℤ)]) b bw hb g1 hbord' hnotin' (List.range p)
    (res.Adjacency, res.Weights, 0) hinit
  obtain ⟨e1, e2, e3, e4, e5, e6⟩ := hfold
  have hca := countActive_set_false rem b (by omega) hbact
  have htn : ((b:ℤ)).toNat = b := Int.toNat_natCast b
  constructor
  · show GInv p
      { Adjacency := ((List.range p).foldl
          (updateEdgesStep s.config.tolerance (b:ℤ) bw rem)
          (res.Adjacency, res.Weights, 0)).1
        Order := res.Order ++ [(b:ℤ)]
        Residuals := res.Residuals.set res.Order.length bMSE
        Weights := ((List.range p).foldl
          (updateEdgesStep s.config.tolerance (b:ℤ) bw rem)
          (res.Adjacency, res.Weights, 0)).2.1 }
      (rem.set ((b:ℤ)).toNat false)
    rw [htn]
    refine ⟨by rw [List.length_set, g1], ?_, ?_, ?_, ?_, e1, e2, e3, e4, e5, e6⟩
    · simp only [List.length_append, List.length_singleton]
      omega
    · rw [List.nodup_append]
      exact ⟨g3, List.nodup_singleton _, by
        intro a ha hamem
        rw [List.mem_singleton.mp hamem] at ha
        exact hbnotord ha⟩
    · intro v hv
      rcases List.mem_append.mp hv with hm | hm
      · exact g4 v hm
      · rw [List.mem_singleton.mp hm]
        constructor
        · exact_mod_cast Nat.zero_le b
        · exact_mod_cast hb
    · intro j hj hja
      rw [getD_set] at hja
      by_cases hjb : b = j ∧ b < rem.length
      · rw [if_pos hjb] at hja
        exact absurd hja (by simp)
      · rw [if_neg hjb] at hja
        have hjb' : j ≠ b := by
          intro hc
          exact hjb ⟨hc.symm, by omega⟩
        exact hnotin' j hj hja hjb'
  · show countActive (rem.set ((b:ℤ)).toNat false) + 1 = countActive rem
    rw [htn]
    exact hca

theorem processLastVariable_inv (stdX : List (List ℝ)) (res : GraphResult)
    (rem : List Bool) (n p : ℕ) (hg : GInv p res rem)
    (hone : countActive rem = 1) :
    GInv p (processLastVariable stdX res rem n).1
      (processLastVariable stdX res rem n).2 ∧
    countActive (processLastVariable stdX res rem n).2 = 0 := by
  obtain ⟨g1, g2, g3, g4, g5, g6a, g6b, g6c, g6d, g7, g8⟩ := hg
  obtain ⟨j0, hj0len, hj0act⟩ := countActive_exists rem (by omega)
  have hsome : ((List.range rem.length).find?
      (fun k => rem.getD k false)).isSome := by
    apply List.find?_isSome.mpr
    exact ⟨j0, List.mem_range.mpr hj0len, hj0act⟩
  obtain ⟨j, hfind⟩ := Option.isSome_iff_exists.mp hsome
  have hjlen : j < rem.length :=
    List.mem_range.mp (List.mem_of_find?_eq_some hfind)
  have hjact : rem.getD j false = true := by
    have := List.find?_some hfind
    simpa using this
  have hjp : j < p := by omega
  have hjnotord : (j:ℤ) ∉ res.Order := g5 j hjp hjact
  have hca := countActive_set_false rem j hjlen hjact
  unfold processLastVariable
  rw [hfind]
  constructor
  · refine ⟨by rw [List.length_set, g1], ?_, ?_, ?_, ?_, g6a, g6b, g6c, g6d,
      ?_, g8⟩
    · simp only [List.length_append, List.length_singleton]
      omega
    · rw [List.nodup_append]
      exact ⟨g3, List.nodup_singleton _, by
        intro a ha hamem
        rw [List.mem_singleton.mp hamem] at ha
        exact hjnotord ha⟩
    · intro v hv
      rcases List.mem_append.mp hv with hm | hm
      · exact g4 v hm
      · rw [List.mem_singleton.mp hm]
        constructor
        · exact_mod_cast Nat.zero_le j
        · exact_mod_cast hjp
    · intro k hk hka
      rw [getD_set] at hka
      by_cases hkj : j = k ∧ j < rem.length
      · rw [if_pos hkj] at hka
        exact absurd hka (by simp)
      · rw [if_neg hkj] at hka
        have hkj' : k ≠ j := by
          intro hc
          exact hkj ⟨hc.symm, hjlen⟩
        intro hmem
        rcases List.mem_append.mp hmem with hm | hm
        · exact g5 k hk hka hm
        · exact hkj' (by exact_mod_cast List.mem_singleton.mp hm)
    · intro i k hT
      obtain ⟨hiord, himp⟩ := g7 i k hT
      exact order_extend res.Order (j:ℤ) hjnotord (i:ℤ) (k:ℤ) hiord himp
  · show countActive (rem.set j false) = 0
    omega

theorem fitLoop_succ (s : SURDM) (stdX : List (List ℝ)) (n p fuel : ℕ)
    (res : GraphResult) (rem : List Bool) :
    fitLoop s stdX n p (fuel+1) res rem =
      if countActive rem = 1 then
        fitLoop s stdX n p fuel (processLastVariable stdX res rem n).1
          (processLastVariable stdX res rem n).2
      else
        fitLoop s stdX n p fuel
          (updateResults s res
            (findBestVariable (processVariables s stdX rem n p)).1
            (findBestVariable (processVariables s stdX rem n p)).2.1
            (findBestVariable (processVariables s stdX rem n p)).2.2 rem p).1
          (updateResults s res
            (findBestVariable (processVariables s stdX rem n p)).1
            (findBestVariable (processVariables s stdX rem n p)).2.1
            (findBestVariable (processVariables s stdX rem n p)).2.2 rem p).2
  := rfl

theorem fitLoop_inv (s : SURDM) (stdX : List (List ℝ)) (n p : ℕ)
    (hlam : 0 ≤ s.regressor.config.lambda) (hp : stdX.length = p)
    (hstd : ∀ c ∈ stdX, c.length = n ∧ (dotp c c = 0 ∨ dotp c c = (n:ℝ)))
    (hn : 2 ≤ n) :
    ∀ (fuel : ℕ) (res : GraphResult) (rem : List Bool),
      GInv p res rem → countActive rem = fuel →
      ∃ rem2, GInv p (fitLoop s stdX n p fuel res rem) rem2 ∧
        countActive rem2 = 0 := by
  intro fuel
  induction fuel with
  | zero =>
    intro res rem hg hca
    exact ⟨rem, hg, hca⟩
  | succ f ih =>
    intro res rem hg hca
    rw [fitLoop_succ]
    by_cases hone : countActive rem = 1
    · rw [if_pos hone]
      obtain ⟨hg', hca'⟩ := processLastVariable_inv stdX res rem n p hg hone
      exact ih _ _ hg' (by omega)
    · rw [if_neg hone]
      have hact2 : 2 ≤ countActive rem := by omega
      obtain ⟨ja, hjalen, hjaact⟩ := countActive_exists rem (by omega)
      have hjap : ja < p := by
        have := hg.1
        omega
      have hr0 : (match prepareData stdX ja rem with
          | (none, _) => (⟨ja, maxFloat64, []⟩ : VarResult)
          | (some xSub, y) =>
            let weights := s.regressor.FitCols xSub y
            ⟨ja, computeMSE (calculateResiduals xSub y weights), weights⟩) ∈
          processVariables s stdX rem n p := by
        unfold processVariables
        apply List.mem_map.mpr
        exact ⟨ja, List.mem_filter.mpr ⟨List.mem_range.mpr hjap,
          by rw [hjaact]⟩, rfl⟩
      have hmse := processVariables_mse s stdX rem n p hlam hp hstd hn hact2
      have hfin : ∃ r ∈ processVariables s stdX rem n p, r.mse < maxFloat64 := by
        refine ⟨_, hr0, lt_of_le_of_lt (hmse _ hr0) ?_⟩
        unfold maxFloat64
        norm_num
      obtain ⟨r, hrmem, heq, -, -⟩ :=
        findBestVariable_mem (processVariables s stdX rem n p) hfin
      obtain ⟨hrp, hract⟩ := processVariables_idx s stdX rem n p r hrmem
      have harg : updateResults s res
          (findBestVariable (processVariables s stdX rem n p)).1
          (findBestVariable (processVariables s stdX rem n p)).2.1
          (findBestVariable (processVariables s stdX rem n p)).2.2 rem p =
          updateResults s res ((r.idx : ℤ)) r.mse r.weights rem p := by
        rw [heq]
      rw [harg]
      obtain ⟨hg', hca'⟩ :=
        updateResults_inv s p res rem r.idx r.mse r.weights hg hrp hract
      exact ih _ _ hg' (by omega)

/-- Inversion of a successful `Fit`: the validation passed and the result is
the final state of the main loop. -/
theorem fit_ok_inv (s : SURDM) (x : List (List ℝ)) (res : GraphResult)
    (hfit : SURD.Fit s (some x) = Except.ok res) :
    2 ≤ numRows x ∧ 1 ≤ x.length ∧
    res = fitLoop s (standardize x) (numRows x) x.length x.length
      (initResult x.length) (List.replicate x.length true) := by
  have h : SURD.Fit s (some x) =
      (if numRows x = 0 ∨ x.length = 0 then Except.error SurdError.InvalidInput
       else if numRows x < 2 then Except.error SurdError.InsufficientSamples
       else Except.ok (fitLoop s (standardize x) (numRows x) x.length x.length
         (initResult x.length) (List.replicate x.length true))) := rfl
  rw [h] at hfit
  by_cases h1 : numRows x = 0 ∨ x.length = 0
  · rw [if_pos h1] at hfit
    exact absurd hfit (by simp)
  · rw [if_neg h1] at hfit
    push_neg at h1
    by_cases h2 : numRows x < 2
    · rw [if_pos h2] at hfit
      exact absurd hfit (by simp)
    · rw [if_neg h2] at hfit
      refine ⟨by omega, ?_, ?_⟩
      · have := h1.2
        omega
      · injection hfit with h3
        exact h3.symm

theorem New_lambda_nonneg (cfg : Config) :
    0 ≤ (New cfg).regressor.config.lambda := by
  have h : (New cfg).regressor.config.lambda =
      (if (if cfg.lambda ≤ 0 then (1e-2 : ℝ) else cfg.lambda) < 0 then 1e-2
       else (if cfg.lambda ≤ 0 then (1e-2 : ℝ) else cfg.lambda)) := rfl
  rw [h]
  split_ifs with h1 h2 h3 <;> norm_num <;> linarith

theorem GInv_init (p : ℕ) : GInv p (initResult p) (List.replicate p true) := by
  refine ⟨by simp, ?_, List.nodup_nil, by simp [initResult], ?_,
    by simp [initResult], ?_, by simp [initResult], ?_, ?_, ?_⟩
  · rw [countActive_replicate_true]
    simp [initResult]
  · intro j hj hja
    simp [initResult]
  · intro row hrow
    rw [List.eq_of_mem_replicate hrow]
    simp
  · intro row hrow
    rw [List.eq_of_mem_replicate hrow]
    simp
  · intro i j hT
    have := getAt2_replicate p false i j
    rw [show getAt2 (initResult p).Adjacency i j false =
      getAt2 (List.replicate p (List.replicate p false)) i j false from rfl] at hT
    rw [this] at hT
    exact absurd hT (by simp)
  · intro i j hF
    show getAt2 (List.replicate p (List.replicate p (0:ℝ))) i j 0 = 0
    exact getAt2_replicate p 0 i j

/-- The state of a completed `Fit` satisfies the orchestrator invariant with
an exhausted active set. -/
theorem fit_ok_final (cfg : Config) (x : List (List ℝ)) (res : GraphResult)
    (hrect : ∀ c ∈ x, c.length = numRows x)
    (hfit : SURD.Fit (New cfg) (some x) = Except.ok res) :
    ∃ rem2, GInv x.length res rem2 ∧ countActive rem2 = 0 := by
  obtain ⟨hn, hp, hres⟩ := fit_ok_inv (New cfg) x res hfit
  obtain ⟨hslen, hsprops⟩ := standardize_props x (numRows x) hrect
  rw [hres]
  exact fitLoop_inv (New cfg) (standardize x) (numRows x) x.length
    (New_lambda_nonneg cfg) hslen hsprops hn x.length
    (initResult x.length) (List.replicate x.length true) (GInv_init x.length)
    (countActive_replicate_true x.length)

theorem getAt2_true_lt (p : ℕ) (adj : List (List Bool)) (ha1 : adj.length = p)
    (ha2 : ∀ row ∈ adj, row.length = p) (i j : ℕ)
    (h : getAt2 adj i j false = true) : i < p ∧ j < p := by
  unfold getAt2 at h
  by_cases hi : i < adj.length
  · have hrow : adj.getD i [] ∈ adj := by
      rw [List.getD_eq_getElem _ _ hi]
      exact List.getElem_mem _
    have hrl : (adj.getD i []).length = p := ha2 _ hrow
    by_cases hj : j < (adj.getD i []).length
    · exact ⟨by omega, by omega⟩
    · rw [List.getD_eq_default _ _ (by omega)] at h
      exact absurd h (by simp)
  · have houter : adj.getD i [] = [] := List.getD_eq_default _ _ (by omega)
    rw [houter] at h
    rw [List.getD_eq_default _ _ (by simp)] at h
    exact absurd h (by simp)

theorem order_perm_of_final (p : ℕ) (ord : List ℤ) (hlen : ord.length = p)
    (hnodup : ord.Nodup) (hbound : ∀ v ∈ ord, 0 ≤ v ∧ v < (p:ℤ)) :
    ord.Perm ((List.range p).map (fun k : ℕ => (k:ℤ))) := by
  have hsub : ord ⊆ (List.range p).map (fun k : ℕ => (k:ℤ)) := by
    intro v hv
    obtain ⟨h0, hp'⟩ := hbound v hv
    have hv' : v = ((v.toNat : ℕ) : ℤ) := (Int.toNat_of_nonneg h0).symm
    rw [hv']
    exact List.mem_map_of_mem _ (List.mem_range.mpr (by omega))
  have hsp := List.subperm_of_subset hnodup hsub
  apply hsp.perm_of_length_le
  rw [hlen, List.length_map, List.length_range]

/-! ### The graph claims about Fit (C2, C4, C9) -/

/-- C2: for every accepted (rectangular) input, each recorded edge `(i,j)`
has `i` strictly before `j` in the returned `Order` (acyclicity by
construction), and `Weights[i][j]` is zero whenever `Adjacency[i][j]` is
false. -/
theorem fit_acyclicity (cfg : Config) (x : List (List ℝ)) (res : GraphResult)
    (hrect : ∀ c ∈ x, c.length = numRows x)
    (hfit : SURD.Fit (New cfg) (some x) = Except.ok res) :
    (∀ i j : ℕ, getAt2 res.Adjacency i j false = true →
      res.Order.indexOf (i:ℤ) < res.Order.indexOf (j:ℤ)) ∧
    (∀ i j : ℕ, getAt2 res.Adjacency i j false = false →
      getAt2 res.Weights i j 0 = 0) := by
  obtain ⟨rem2, hg, hca0⟩ := fit_ok_final cfg x res hrect hfit
  obtain ⟨g1, g2, g3, g4, g5, g6a, g6b, g6c, g6d, g7, g8⟩ := hg
  refine ⟨?_, g8⟩
  intro i j hT
  obtain ⟨hip, hjp⟩ := getAt2_true_lt _ _ g6a g6b i j hT
  obtain ⟨hiord, himp⟩ := g7 i j hT
  apply himp
  have hlen : res.Order.length = x.length := by omega
  have hperm := order_perm_of_final x.length res.Order hlen g3 g4
  apply hperm.mem_iff.mpr
  exact List.mem_map_of_mem _ (List.mem_range.mpr hjp)

/-- Witness for C2 at the concrete matrix with columns `[0,2]` and `[0,2]`. -/
theorem fit_acyclicity_witness :
    (∀ c ∈ ([[0, 2], [0, 2]] : List (List ℝ)),
      c.length = numRows [[0, 2], [0, 2]]) ∧
    ∃ res, SURD.Fit (New ⟨0, 0, 0, 0, false⟩)
        (some [[0, 2], [0, 2]]) = Except.ok res ∧
      ((∀ i j : ℕ, getAt2 res.Adjacency i j false = true →
        res.Order.indexOf (i:ℤ) < res.Order.indexOf (j:ℤ)) ∧
       (∀ i j : ℕ, getAt2 res.Adjacency i j false = false →
        getAt2 res.Weights i j 0 = 0)) := by
  have hrect : ∀ c ∈ ([[0, 2], [0, 2]] : List (List ℝ)),
      c.length = numRows [[0, 2], [0, 2]] := by
    intro c hc
    simp only [List.mem_cons, List.not_mem_nil, or_false] at hc
    rcases hc with rfl | rfl <;> rfl
  exact ⟨hrect, _, rfl, fit_acyclicity ⟨0, 0, 0, 0, false⟩ _ _ hrect rfl⟩

/-- C4: for every accepted (rectangular) input, the returned `Order` is a
permutation of `0..p-1`: length `p`, no duplicates, every index once. -/
theorem fit_order_perm (cfg : Config) (x : List (List ℝ)) (res : GraphResult)
    (hrect : ∀ c ∈ x, c.length = numRows x)
    (hfit : SURD.Fit (New cfg) (some x) = Except.ok res) :
    res.Order.Perm ((List.range x.length).map (fun k : ℕ => (k:ℤ))) := by
  obtain ⟨rem2, hg, hca0⟩ := fit_ok_final cfg x res hrect hfit
  obtain ⟨g1, g2, g3, g4, -⟩ := hg
  exact order_perm_of_final x.length res.Order (by omega) g3 g4

/-- Witness for C4 at the concrete matrix with columns `[0,2]` and `[0,2]`. -/
theorem fit_order_perm_witness :
    (∀ c ∈ ([[0, 2], [0, 2]] : List (List ℝ)),
      c.length = numRows [[0, 2], [0, 2]]) ∧
    ∃ res, SURD.Fit (New ⟨0, 0, 0, 0, false⟩)
        (some [[0, 2], [0, 2]]) = Except.ok res ∧
      res.Order.Perm ((List.range ([[0, 2], [0, 2]] :
        List (List ℝ)).length).map (fun k : ℕ => (k:ℤ))) := by
  have hrect : ∀ c ∈ ([[0, 2], [0, 2]] : List (List ℝ)),
      c.length = numRows [[0, 2], [0, 2]] := by
    intro c hc
    simp only [List.mem_cons, List.not_mem_nil, or_false] at hc
    rcases hc with rfl | rfl <;> rfl
  exact ⟨hrect, _, rfl, fit_order_perm ⟨0, 0, 0, 0, false⟩ _ _ hrect rfl⟩

/-- C9: for every accepted (rectangular) input, the returned graph has no
self-loop: `Adjacency[i][i]` is false and `Weights[i][i]` is zero for every
`i`, because the update step skips the just-selected variable. -/
theorem fit_no_self_loop (cfg : Config) (x : List (List ℝ)) (res : GraphResult)
    (hrect : ∀ c ∈ x, c.length = numRows x)
    (hfit : SURD.Fit (New cfg) (some x) = Except.ok res) :
    ∀ i : ℕ, getAt2 res.Adjacency i i false = false ∧
      getAt2 res.Weights i i 0 = 0 := by
  obtain ⟨rem2, hg, hca0⟩ := fit_ok_final cfg x res hrect hfit
  obtain ⟨g1, g2, g3, g4, g5, g6a, g6b, g6c, g6d, g7, g8⟩ := hg
  intro i
  have hAF : getAt2 res.Adjacency i i false = false := by
    cases hT : getAt2 res.Adjacency i i false
    · rfl
    · obtain ⟨hiord, himp⟩ := g7 i i hT
      exact absurd (himp hiord) (lt_irrefl _)
  exact ⟨hAF, g8 i i hAF⟩

/-- Witness for C9 at the concrete matrix with columns `[0,2]` and `[0,2]`. -/
theorem fit_no_self_loop_witness :
    (∀ c ∈ ([[0, 2], [0, 2]] : List (List ℝ)),
      c.length = numRows [[0, 2], [0, 2]]) ∧
    ∃ res, SURD.Fit (New ⟨0, 0, 0, 0, false⟩)
        (some [[0, 2], [0, 2]]) = Except.ok res ∧
      ∀ i : ℕ, getAt2 res.Adjacency i i false = false ∧
        getAt2 res.Weights i i 0 = 0 := by
  have hrect : ∀ c ∈ ([[0, 2], [0, 2]] : List (List ℝ)),
      c.length = numRows [[0, 2], [0, 2]] := by
    intro c hc
    simp only [List.mem_cons, List.not_mem_nil, or_false] at hc
    rcases hc with rfl | rfl <;> rfl
  exact ⟨hrect, _, rfl, fit_no_self_loop ⟨0, 0, 0, 0, false⟩ _ _ hrect rfl⟩

end

end CausalGo
